import Mathlib

/-!
Verification of the capture core of `src/js/catchonika.js` (Catchonika):
MIDI event ingest with sustain-pedal handling, automatic take
segmentation, rolling-buffer garbage collection, note-interval
reconstruction and the numeric core of MIDI export.

Millisecond timestamps (JS numbers) are modelled as rationals; MIDI
data bytes, channels, notes and velocities as naturals.  JS `Map`s are
modelled as insertion-ordered association lists (`Map.set` replaces a
value in place, keeping the entry's position; `Map.delete` removes the
entry), and JS `Set`s as insertion-ordered duplicate-free lists.
-/

abbrev Time := ℚ

/-- Captured events, mirroring the objects pushed onto `this._events`,
dispatching on their `type` field ("noteon", "noteoff",
"noteoff_deferred", "cc", "pitchbend", "raw").  The opaque
source-identification fields (`inputId`, `inputName`) are pass-through
metadata, never inspected by any code path under verification, and are
omitted. -/
inductive Ev : Type
  | noteon (ch note vel : Nat) (t : Time)
  | noteoff (ch note : Nat) (t : Time)
  | noteoffDeferred (ch note : Nat) (t : Time)
  | cc (ch ccnum val : Nat) (t : Time)
  | pitchbend (ch : Nat) (value : Int) (t : Time)
  | raw (ch : Nat) (bytes : List Nat) (t : Time)
  deriving DecidableEq

/-- The `t` field common to every event object. -/
def evTime : Ev → Time
  | .noteon _ _ _ t => t
  | .noteoff _ _ t => t
  | .noteoffDeferred _ _ t => t
  | .cc _ _ _ t => t
  | .pitchbend _ _ t => t
  | .raw _ _ t => t

/-- The `(ch, note)` key of a note-on / note-off event, `none` for the
other kinds. -/
def evKey : Ev → Option (Nat × Nat)
  | .noteon ch note _ _ => some (ch, note)
  | .noteoff ch note _ => some (ch, note)
  | .noteoffDeferred ch note _ => some (ch, note)
  | _ => none

/-- Whether an event is a `noteon` record. -/
def isNoteOnB : Ev → Bool
  | .noteon _ _ _ _ => true
  | _ => false

section AssocOps

variable {K V : Type} [DecidableEq K]

/-- `Map.get`: first (and, with duplicate-free keys, only) value stored
under a key. -/
def lookupA : List (K × V) → K → Option V
  | [], _ => none
  | (k', v) :: rest, k => if k' = k then some v else lookupA rest k

/-- `Map.set`: replace in place if the key is present (a JS `Map` keeps
the original insertion position), otherwise append. -/
def setA : List (K × V) → K → V → List (K × V)
  | [], k, v => [(k, v)]
  | (k', v') :: rest, k, v =>
    if k' = k then (k, v) :: rest else (k', v') :: setA rest k v

/-- `Map.delete`: remove the entry stored under a key. -/
def delA : List (K × V) → K → List (K × V)
  | [], _ => []
  | (k', v) :: rest, k => if k' = k then rest else (k', v) :: delA rest k

/-- The keys of an association list, in insertion order. -/
def keysOf (l : List (K × V)) : List K := l.map Prod.fst

theorem lookupA_setA_self (l : List (K × V)) (k : K) (v : V) :
    lookupA (setA l k v) k = some v := by
  induction l with
  | nil => simp [setA, lookupA]
  | cons hd tl ih =>
    obtain ⟨k', v'⟩ := hd
    by_cases h : k' = k <;> simp [setA, lookupA, h, ih]

theorem lookupA_setA_ne (l : List (K × V)) (k k' : K) (v : V) (h : k' ≠ k) :
    lookupA (setA l k v) k' = lookupA l k' := by
  have hne : k ≠ k' := fun hh => h hh.symm
  induction l with
  | nil => simp [setA, lookupA, hne]
  | cons hd tl ih =>
    obtain ⟨k0, v0⟩ := hd
    by_cases h0 : k0 = k
    · subst h0
      simp [setA, lookupA, hne]
    · by_cases h1 : k0 = k' <;> simp [setA, lookupA, h0, h1, ih, h]

theorem lookupA_delA_ne (l : List (K × V)) (k k' : K) (h : k' ≠ k) :
    lookupA (delA l k) k' = lookupA l k' := by
  have hne : k ≠ k' := fun hh => h hh.symm
  induction l with
  | nil => simp [delA]
  | cons hd tl ih =>
    obtain ⟨k0, v0⟩ := hd
    by_cases h0 : k0 = k
    · subst h0
      simp [delA, lookupA, hne]
    · by_cases h1 : k0 = k' <;> simp [delA, lookupA, h0, h1, ih, h]

theorem lookupA_eq_none_of_not_mem (l : List (K × V)) (k : K)
    (h : k ∉ keysOf l) : lookupA l k = none := by
  induction l with
  | nil => simp [lookupA]
  | cons hd tl ih =>
    obtain ⟨k0, v0⟩ := hd
    simp only [keysOf, List.map_cons, List.mem_cons] at h
    push_neg at h
    have hne : k0 ≠ k := fun hh => h.1 hh.symm
    simp [lookupA, hne, ih (by simpa [keysOf] using h.2)]

theorem lookupA_delA_self (l : List (K × V)) (k : K)
    (h : (keysOf l).Nodup) : lookupA (delA l k) k = none := by
  induction l with
  | nil => simp [delA, lookupA]
  | cons hd tl ih =>
    obtain ⟨k0, v0⟩ := hd
    simp only [keysOf, List.map_cons, List.nodup_cons] at h
    by_cases h0 : k0 = k
    · subst h0
      simp only [delA, if_pos rfl]
      exact lookupA_eq_none_of_not_mem tl k0 (by simpa [keysOf] using h.1)
    · simp [delA, lookupA, h0, ih (by simpa [keysOf] using h.2)]

theorem mem_delA {l : List (K × V)} {k : K} {x : K × V}
    (h : x ∈ delA l k) : x ∈ l := by
  induction l with
  | nil => simp [delA] at h
  | cons hd tl ih =>
    obtain ⟨k0, v0⟩ := hd
    by_cases h0 : k0 = k
    · subst h0
      simp [delA] at h
      exact List.mem_cons_of_mem _ h
    · simp only [delA, h0, if_false, List.mem_cons] at h
      rcases h with h | h
      · exact h ▸ List.mem_cons_self _ _
      · exact List.mem_cons_of_mem _ (ih h)

theorem lookupA_mem {l : List (K × V)} {k : K} {v : V}
    (h : lookupA l k = some v) : (k, v) ∈ l := by
  induction l with
  | nil => simp [lookupA] at h
  | cons hd tl ih =>
    obtain ⟨k0, v0⟩ := hd
    by_cases h0 : k0 = k
    · subst h0
      simp [lookupA] at h
      simp [h]
    · simp only [lookupA, h0, if_false] at h
      exact List.mem_cons_of_mem _ (ih h)

theorem lookupA_isSome_of_mem_keys {l : List (K × V)} {k : K}
    (h : k ∈ keysOf l) : (lookupA l k).isSome := by
  induction l with
  | nil => simp [keysOf] at h
  | cons hd tl ih =>
    obtain ⟨k0, v0⟩ := hd
    by_cases h0 : k0 = k
    · simp [lookupA, h0]
    · simp only [keysOf, List.map_cons, List.mem_cons] at h
      rcases h with h | h
      · exact absurd h.symm h0
      · simpa [lookupA, h0] using ih (by simpa [keysOf] using h)

end AssocOps

/-- `this._sustain.get(c) === true` (an absent channel reads as
pedal-up). -/
def sustainGet (l : List (Nat × Bool)) (ch : Nat) : Bool :=
  (lookupA l ch).getD false

/-- Reading a channel's pending-key set (an absent channel reads as the
empty set; `ensureSet` materialises the empty set on demand, which is
unobservable through this accessor). -/
def pendGet (m : List (Nat × List (Nat × Nat))) (ch : Nat) : List (Nat × Nat) :=
  (lookupA m ch).getD []

/-- `Set.add` on a pending-key set: a no-op when the key is already
present, otherwise appended in insertion order. -/
def addKey (l : List (Nat × Nat)) (k : Nat × Nat) : List (Nat × Nat) :=
  if k ∈ l then l else l ++ [k]

/-- `_gc`, acting on the event buffer at a fixed relative current time
`nowRel = ts() - this._start`:
`cutoff = nowRel - bufferMinutes*60*1000`; when the cutoff is not yet
positive nothing happens, otherwise every event with `t < cutoff` is
discarded. -/
def gc (nowRel : Time) (bufferMinutes : ℚ) (events : List Ev) : List Ev :=
  let maxMs := bufferMinutes * 60 * 1000
  let cutoff := nowRel - maxMs
  if cutoff ≤ 0 then events else events.filter (fun e => cutoff ≤ evTime e)

/-- Claim C8: GC is idempotent — for every event buffer and every fixed
current time, running the GC sweep twice in immediate succession yields
the same event buffer as running it once. -/
theorem C8_gc_idempotent (nowRel : Time) (bufferMinutes : ℚ)
    (events : List Ev) :
    gc nowRel bufferMinutes (gc nowRel bufferMinutes events) =
      gc nowRel bufferMinutes events := by
  unfold gc
  by_cases h : nowRel - bufferMinutes * 60 * 1000 ≤ 0
  · simp [h]
  · simp only [h, if_false]
    rw [List.filter_filter]
    simp

/-! ## Note reconstruction (`_reconstructNotes`) -/

/-- A reconstructed note interval, as pushed onto the local `notes`
array by `pushNote`. -/
structure Note where
  ch : Nat
  note : Nat
  startMs : Time
  endMs : Time
  vel : Nat
  deriving DecidableEq

/-- Local replay state of `_reconstructNotes`: the `active`, `sustain`
and `pending` maps together with the `notes` accumulator (all built
from scratch, independent of the live capture state). -/
structure RecState where
  active : List ((Nat × Nat) × (Time × Nat))
  sustain : List (Nat × Bool)
  pending : List (Nat × List (Nat × Nat))
  notes : List Note
  deriving DecidableEq

/-- `pushNote`: clamp both endpoints to `[windowStart, windowEnd]` and
append the interval only when the clamped duration is positive.
(`tOff ?? windowEnd` never fires in the source: every caller passes an
explicit `tOff`, the final truncation pass passing `windowEnd`.) -/
def pushNote (windowStart windowEnd : Time) (ch note : Nat)
    (tOn tOff : Time) (vel : Nat) (notes : List Note) : List Note :=
  let startMs := max windowStart (min windowEnd tOn)
  let endMs := max windowStart (min windowEnd tOff)
  if startMs < endMs then notes ++ [⟨ch, note, startMs, endMs, vel⟩] else notes

/-- One iteration of the pedal-up flush inside the replay loop: a
pending key with a locally active note is closed at the pedal-up time
`t` and removed from `active`; a pending key with no active note is
skipped. -/
def rflushStep (windowStart windowEnd t : Time) (ch : Nat)
    (p : List ((Nat × Nat) × (Time × Nat)) × List Note) (key : Nat × Nat) :
    List ((Nat × Nat) × (Time × Nat)) × List Note :=
  match lookupA p.1 key with
  | some st => (delA p.1 key, pushNote windowStart windowEnd ch key.2 st.1 t st.2 p.2)
  | none => p

/-- One iteration of the replay loop of `_reconstructNotes` over a
single event. -/
def rstep (windowStart windowEnd : Time) (s : RecState) (e : Ev) : RecState :=
  match e with
  | .cc ch ccnum val t =>
    if ccnum = 64 then
      let down : Bool := decide (64 ≤ val)
      let was : Bool := sustainGet s.sustain ch
      let sus' := setA s.sustain ch down
      if was && !down then
        let keys := pendGet s.pending ch
        let p := keys.foldl (rflushStep windowStart windowEnd t ch) (s.active, s.notes)
        { active := p.1, sustain := sus', pending := setA s.pending ch [],
          notes := p.2 }
      else { s with sustain := sus' }
    else s
  | .noteon ch note vel t =>
    { s with active := setA s.active (ch, note) (t, vel) }
  | .noteoff ch note t | .noteoffDeferred ch note t =>
    match lookupA s.active (ch, note) with
    | none => s
    | some st =>
      if sustainGet s.sustain ch then
        { s with pending := setA s.pending ch (addKey (pendGet s.pending ch) (ch, note)) }
      else
        { s with notes := pushNote windowStart windowEnd ch note st.1 t st.2 s.notes,
                 active := delA s.active (ch, note) }
  | _ => s

/-- The final truncation pass of `_reconstructNotes`: every note still
active at the end of the replay is closed at `windowEnd`. -/
def rfinalize (windowStart windowEnd : Time) (s : RecState) : List Note :=
  s.active.foldl
    (fun notes kv => pushNote windowStart windowEnd kv.1.1 kv.1.2 kv.2.1 windowEnd kv.2.2 notes)
    s.notes

/-- The flat `notes` array computed by `_reconstructNotes` just before
grouping by track. -/
def reconstructNotesFlat (events : List Ev) (windowStart windowEnd : Time) :
    List Note :=
  rfinalize windowStart windowEnd
    (events.foldl (rstep windowStart windowEnd) ⟨[], [], [], []⟩)

/-- Track keys: the source uses the strings `"main"` and `"ch-<n>"`. -/
inductive TrackKey : Type
  | main
  | chTrack (ch : Nat)
  deriving DecidableEq

/-- `trackKeyFor`, driven by the `groupByChannel` setting. -/
def trackKeyFor (groupByChannel : Bool) (ch : Nat) : TrackKey :=
  if groupByChannel then .chTrack ch else .main

/-- Appending a note to its track's bucket in the insertion-ordered
`byTrack` map. -/
def addToTrack (m : List (TrackKey × List Note)) (k : TrackKey) (n : Note) :
    List (TrackKey × List Note) :=
  match lookupA m k with
  | some ns => setA m k (ns ++ [n])
  | none => m ++ [(k, [n])]

/-- Ascending insertion by `startMs`, modelling
`arr.sort((a, b) => a.startMs - b.startMs)`. -/
def insertByStart (n : Note) : List Note → List Note
  | [] => [n]
  | m :: rest =>
    if n.startMs ≤ m.startMs then n :: m :: rest else m :: insertByStart n rest

/-- Sorting a track's notes by start time. -/
def sortByStart : List Note → List Note
  | [] => []
  | n :: rest => insertByStart n (sortByStart rest)

/-- `_reconstructNotes`: replay, group by track and sort each track by
start time. -/
def reconstructNotes (groupByChannel : Bool) (events : List Ev)
    (windowStart windowEnd : Time) : List (TrackKey × List Note) :=
  let notes := reconstructNotesFlat events windowStart windowEnd
  let byTrack := notes.foldl (fun m n => addToTrack m (trackKeyFor groupByChannel n.ch) n) []
  byTrack.map (fun p => (p.1, sortByStart p.2))

/-- The window-clamping bounds every emitted interval must satisfy. -/
def NoteOK (windowStart windowEnd : Time) (n : Note) : Prop :=
  windowStart ≤ n.startMs ∧ n.startMs < n.endMs ∧ n.endMs ≤ windowEnd

theorem mem_setA {K V : Type} [DecidableEq K] {l : List (K × V)} {k : K}
    {v : V} {x : K × V} (h : x ∈ setA l k v) : x ∈ l ∨ x = (k, v) := by
  induction l with
  | nil =>
    simp only [setA, List.mem_singleton] at h
    right; exact h
  | cons hd tl ih =>
    obtain ⟨k0, v0⟩ := hd
    by_cases h0 : k0 = k
    · subst h0
      rw [setA, if_pos rfl] at h
      rcases List.mem_cons.1 h with h | h
      · right; exact h
      · left; exact List.mem_cons_of_mem _ h
    · rw [setA, if_neg h0] at h
      rcases List.mem_cons.1 h with h | h
      · left; exact h ▸ List.mem_cons_self _ _
      · rcases ih h with h' | h'
        · left; exact List.mem_cons_of_mem _ h'
        · right; exact h'

theorem pushNote_mem {windowStart windowEnd : Time} {ch note : Nat}
    {tOn tOff : Time} {vel : Nat} {notes : List Note} {n : Note}
    (h : n ∈ pushNote windowStart windowEnd ch note tOn tOff vel notes) :
    n ∈ notes ∨ NoteOK windowStart windowEnd n := by
  unfold pushNote at h
  by_cases hlt : max windowStart (min windowEnd tOn) <
      max windowStart (min windowEnd tOff)
  · rw [if_pos hlt] at h
    rcases List.mem_append.1 h with h' | h'
    · left; exact h'
    · right
      have hn : n = ⟨ch, note, max windowStart (min windowEnd tOn),
          max windowStart (min windowEnd tOff), vel⟩ := by
        simpa using h'
      subst hn
      refine ⟨le_max_left _ _, hlt, ?_⟩
      have h1 : windowStart < max windowStart (min windowEnd tOff) :=
        lt_of_le_of_lt (le_max_left _ _) hlt
      rcases lt_max_iff.1 h1 with h2 | h2
      · exact absurd h2 (lt_irrefl _)
      · exact max_le (le_of_lt (lt_of_lt_of_le h2 (min_le_left _ _)))
          (min_le_left _ _)
  · rw [if_neg hlt] at h
    left; exact h

theorem rflushStep_notes_mem {windowStart windowEnd t : Time} {ch : Nat}
    {p : List ((Nat × Nat) × (Time × Nat)) × List Note} {key : Nat × Nat}
    {n : Note} (h : n ∈ (rflushStep windowStart windowEnd t ch p key).2) :
    n ∈ p.2 ∨ NoteOK windowStart windowEnd n := by
  unfold rflushStep at h
  rcases hl : lookupA p.1 key with _ | st
  · rw [hl] at h; left; exact h
  · rw [hl] at h
    exact pushNote_mem h

theorem flush_foldl_notes_mem {windowStart windowEnd t : Time} {ch : Nat} :
    ∀ (keys : List (Nat × Nat))
      (p : List ((Nat × Nat) × (Time × Nat)) × List Note) (n : Note),
      n ∈ (keys.foldl (rflushStep windowStart windowEnd t ch) p).2 →
      n ∈ p.2 ∨ NoteOK windowStart windowEnd n := by
  intro keys
  induction keys with
  | nil => intro p n h; left; exact h
  | cons k rest ih =>
    intro p n h
    rcases ih (rflushStep windowStart windowEnd t ch p k) n h with h' | h'
    · exact rflushStep_notes_mem h'
    · right; exact h'

theorem rstep_notes_mem {windowStart windowEnd : Time} {s : RecState}
    {e : Ev} {n : Note} (h : n ∈ (rstep windowStart windowEnd s e).notes) :
    n ∈ s.notes ∨ NoteOK windowStart windowEnd n := by
  cases e with
  | cc ch ccnum val t =>
    simp only [rstep] at h
    split at h
    · split at h
      · exact flush_foldl_notes_mem _ _ _ h
      · left; exact h
    · left; exact h
  | noteon ch note vel t => simp only [rstep] at h; left; exact h
  | noteoff ch note t =>
    simp only [rstep] at h
    split at h
    · left; exact h
    · split at h
      · left; exact h
      · exact pushNote_mem h
  | noteoffDeferred ch note t =>
    simp only [rstep] at h
    split at h
    · left; exact h
    · split at h
      · left; exact h
      · exact pushNote_mem h
  | pitchbend ch value t => simp only [rstep] at h; left; exact h
  | raw ch bytes t => simp only [rstep] at h; left; exact h

theorem replay_foldl_notes_mem {windowStart windowEnd : Time} :
    ∀ (es : List Ev) (s : RecState) (n : Note),
      n ∈ ((es.foldl (rstep windowStart windowEnd) s)).notes →
      n ∈ s.notes ∨ NoteOK windowStart windowEnd n := by
  intro es
  induction es with
  | nil => intro s n h; left; exact h
  | cons e rest ih =>
    intro s n h
    rcases ih (rstep windowStart windowEnd s e) n h with h' | h'
    · exact rstep_notes_mem h'
    · right; exact h'

theorem rfinalize_notes_mem {windowStart windowEnd : Time} {s : RecState}
    {n : Note} (h : n ∈ rfinalize windowStart windowEnd s) :
    n ∈ s.notes ∨ NoteOK windowStart windowEnd n := by
  unfold rfinalize at h
  revert h
  generalize s.notes = acc
  induction s.active generalizing acc with
  | nil => intro h; left; exact h
  | cons kv rest ih =>
    intro h
    rcases ih _ h with h' | h'
    · exact pushNote_mem h'
    · right; exact h'

theorem reconstructNotesFlat_bounds {es : List Ev}
    {windowStart windowEnd : Time} {n : Note}
    (h : n ∈ reconstructNotesFlat es windowStart windowEnd) :
    NoteOK windowStart windowEnd n := by
  unfold reconstructNotesFlat at h
  rcases rfinalize_notes_mem h with h' | h'
  · rcases replay_foldl_notes_mem es _ n h' with h'' | h''
    · simp at h''
    · exact h''
  · exact h'

theorem mem_insertByStart {n x : Note} {l : List Note}
    (h : x ∈ insertByStart n l) : x = n ∨ x ∈ l := by
  induction l with
  | nil =>
    simp only [insertByStart, List.mem_singleton] at h
    left; exact h
  | cons m rest ih =>
    by_cases hc : n.startMs ≤ m.startMs
    · rw [insertByStart, if_pos hc] at h
      rcases List.mem_cons.1 h with h | h
      · left; exact h
      · right; exact h
    · rw [insertByStart, if_neg hc] at h
      rcases List.mem_cons.1 h with h | h
      · right; exact h ▸ List.mem_cons_self _ _
      · rcases ih h with h' | h'
        · left; exact h'
        · right; exact List.mem_cons_of_mem _ h'

theorem mem_sortByStart {x : Note} {l : List Note}
    (h : x ∈ sortByStart l) : x ∈ l := by
  induction l with
  | nil => simp [sortByStart] at h
  | cons m rest ih =>
    rcases mem_insertByStart h with h' | h'
    · exact h' ▸ List.mem_cons_self _ _
    · exact List.mem_cons_of_mem _ (ih h')

theorem addToTrack_inv {m : List (TrackKey × List Note)} {k : TrackKey}
    {n : Note} {base : List Note}
    (hm : ∀ p ∈ m, ∀ x ∈ p.2, x ∈ base) (hn : n ∈ base) :
    ∀ p ∈ addToTrack m k n, ∀ x ∈ p.2, x ∈ base := by
  intro p hp x hx
  unfold addToTrack at hp
  rcases hl : lookupA m k with _ | ns
  · rw [hl] at hp
    rcases List.mem_append.1 hp with hp' | hp'
    · exact hm p hp' x hx
    · have : p = (k, [n]) := by simpa using hp'
      subst this
      simp at hx
      exact hx ▸ hn
  · rw [hl] at hp
    rcases mem_setA hp with hp' | hp'
    · exact hm p hp' x hx
    · subst hp'
      rcases List.mem_append.1 hx with hx' | hx'
      · exact hm (k, ns) (lookupA_mem hl) x hx'
      · have : x = n := by simpa using hx'
        exact this ▸ hn

theorem byTrack_foldl_inv {base : List Note} {gb : Bool} :
    ∀ (notes : List Note) (m : List (TrackKey × List Note)),
      (∀ x ∈ notes, x ∈ base) →
      (∀ p ∈ m, ∀ x ∈ p.2, x ∈ base) →
      ∀ p ∈ notes.foldl (fun m n => addToTrack m (trackKeyFor gb n.ch) n) m,
        ∀ x ∈ p.2, x ∈ base := by
  intro notes
  induction notes with
  | nil => intro m _ hm; exact hm
  | cons n rest ih =>
    intro m hnotes hm
    exact ih _ (fun x hx => hnotes x (List.mem_cons_of_mem _ hx))
      (addToTrack_inv hm (hnotes n (List.mem_cons_self _ _)))

/-- Claim C6: every interval in every track emitted by
`_reconstructNotes` is clamped inside the window — it satisfies
`windowStart ≤ startMs < endMs ≤ windowEnd` — and candidates with
non-positive clamped duration have been dropped. -/
theorem C6_intervals_clamped_to_window (gb : Bool) (es : List Ev)
    (windowStart windowEnd : Time) (p : TrackKey × List Note) (n : Note)
    (hp : p ∈ reconstructNotes gb es windowStart windowEnd) (hn : n ∈ p.2) :
    windowStart ≤ n.startMs ∧ n.startMs < n.endMs ∧ n.endMs ≤ windowEnd := by
  unfold reconstructNotes at hp
  rcases List.mem_map.1 hp with ⟨q, hq, hpq⟩
  have hx : n ∈ q.2 := by
    have : n ∈ sortByStart q.2 := by rw [← hpq] at hn; exact hn
    exact mem_sortByStart this
  have hflat : n ∈ reconstructNotesFlat es windowStart windowEnd :=
    byTrack_foldl_inv _ [] (fun x hx => hx) (by simp) q hq n hx
  exact reconstructNotesFlat_bounds hflat

/-- Concrete instance of C6: a note spanning past the window end is
truncated to the window and satisfies the bounds. -/
theorem C6_intervals_clamped_witness :
    ((TrackKey.main, [⟨2, 64, 0, 1000, 90⟩]) ∈
        reconstructNotes false [Ev.noteon 2 64 90 0] 0 1000 ∧
      (⟨2, 64, 0, 1000, 90⟩ : Note) ∈ [(⟨2, 64, 0, 1000, 90⟩ : Note)]) ∧
    ((0 : Time) ≤ 0 ∧ (0 : Time) < 1000 ∧ (1000 : Time) ≤ 1000) :=
  ⟨⟨by decide, by decide⟩,
    C6_intervals_clamped_to_window false [Ev.noteon 2 64 90 0] 0 1000
      (TrackKey.main, [⟨2, 64, 0, 1000, 90⟩]) ⟨2, 64, 0, 1000, 90⟩
      (by decide) (by decide)⟩

/-! ## Live capture state and event ingest (`_onMIDIMessage`) -/

/-- The mutable capture state of a `Catchonika` instance: the event
buffer, the `_active` / `_sustain` / `_pendingRelease` maps, the list
of closed takes, the open take (`{startMs, lastActivityMs}`) and
whether the one-shot idle timer is armed.  UI rendering, persistence
debouncing and status text are side effects outside the data model. -/
structure CState where
  events : List Ev
  active : List ((Nat × Nat) × (Time × Nat))
  sustain : List (Nat × Bool)
  pendingRelease : List (Nat × List (Nat × Nat))
  takes : List (Time × Time)
  currentTake : Option (Time × Time)
  idleTimer : Bool
  deriving DecidableEq

/-- The state constructed by `new Catchonika(...)` before any message
arrives (persisted-state restore never refills `_active`, `_sustain`
or `_pendingRelease`). -/
def initCState : CState := ⟨[], [], [], [], [], none, false⟩

/-- `_markActivity`: with an open take, refresh `lastActivityMs` and
re-arm the idle timer; otherwise do nothing. -/
def markActivity (t : Time) (s : CState) : CState :=
  match s.currentTake with
  | some tk => { s with currentTake := some (tk.1, t), idleTimer := true }
  | none => s

/-- `_startTake`: open a take `{startMs := t, lastActivityMs := t}` and
arm the idle timer, unless a take is already open. -/
def startTake (t : Time) (s : CState) : CState :=
  match s.currentTake with
  | some _ => s
  | none => { s with currentTake := some (t, t), idleTimer := true }

/-- `_handleNoteOff`: the three-way note-termination rule. -/
def handleNoteOff (t : Time) (ch note : Nat) (s : CState) : CState :=
  match lookupA s.active (ch, note) with
  | none => { s with events := s.events ++ [Ev.noteoff ch note t] }
  | some _ =>
    if sustainGet s.sustain ch then
      { s with
        pendingRelease :=
          setA s.pendingRelease ch (addKey (pendGet s.pendingRelease ch) (ch, note)),
        events := s.events ++ [Ev.noteoffDeferred ch note t] }
    else
      { s with events := s.events ++ [Ev.noteoff ch note t],
               active := delA s.active (ch, note) }

/-- One iteration of the pedal-up flush in `_onMIDIMessage`: a pending
key with an active note gets a `noteoff` at the pedal-up time and its
active entry removed; a pending key with no active note is skipped. -/
def iflushStep (t : Time) (ch : Nat) (s : CState) (key : Nat × Nat) : CState :=
  match lookupA s.active key with
  | some _ =>
    { s with events := s.events ++ [Ev.noteoff ch key.2 t],
             active := delA s.active key }
  | none => s

/-- `_onMIDIMessage` on a raw message `data` arriving at relative time
`t` (shorter-than-expected payloads read as byte 0, matching the
`?? 0` / `|| 0` defaults for velocities and values). -/
def onMIDIMessage (t : Time) (data : List Nat) (s : CState) : CState :=
  match data with
  | [] => s
  | status :: rest =>
    let mtype := status &&& 240
    let ch := (status &&& 15) + 1
    let s1 := markActivity t s
    if mtype = 144 then
      let note := rest.getD 0 0
      let vel := rest.getD 1 0
      if 0 < vel then
        let s2 := startTake t s1
        { s2 with events := s2.events ++ [Ev.noteon ch note vel t],
                  active := setA s2.active (ch, note) (t, vel) }
      else handleNoteOff t ch note s1
    else if mtype = 128 then handleNoteOff t ch (rest.getD 0 0) s1
    else if mtype = 176 then
      let ccn := rest.getD 0 0
      let val := rest.getD 1 0
      let s2 := if s1.currentTake = none ∧ ccn ≠ 64 then startTake t s1 else s1
      let s3 := { s2 with events := s2.events ++ [Ev.cc ch ccn val t] }
      if ccn = 64 then
        let wasDown := sustainGet s3.sustain ch
        let nowDown : Bool := decide (64 ≤ val)
        let s4 := { s3 with sustain := setA s3.sustain ch nowDown }
        let s5 := if !wasDown && nowDown then startTake t s4 else s4
        if wasDown && !nowDown then
          let keys := pendGet s5.pendingRelease ch
          let s6 := keys.foldl (iflushStep t ch) s5
          { s6 with pendingRelease := setA s6.pendingRelease ch [] }
        else s5
      else s3
    else if mtype = 224 then
      let s2 := startTake t s1
      let lsb := rest.getD 0 0
      let msb := rest.getD 1 0
      let value : Int := ((msb <<< 7) ||| lsb : Nat) - 8192
      { s2 with events := s2.events ++ [Ev.pitchbend ch value t] }
    else
      { s1 with events := s1.events ++ [Ev.raw ch (status :: rest) t] }

theorem mem_addKey {l : List (Nat × Nat)} {k k0 : Nat × Nat} :
    k ∈ addKey l k0 ↔ k ∈ l ∨ k = k0 := by
  unfold addKey
  by_cases h : k0 ∈ l
  · rw [if_pos h]
    constructor
    · exact Or.inl
    · rintro (hk | hk)
      · exact hk
      · exact hk ▸ h
  · rw [if_neg h]
    simp

/-- Claim C2: on a termination request for `(ch, note)` at time `t`,
`_handleNoteOff` behaves by exactly three cases: (1) no active note —
a pass-through `noteoff` at `t` is recorded and nothing else changes;
(2) pedal down — the key is added to the channel's pending set, a
`noteoff_deferred` at `t` is recorded and the active note stays;
(3) otherwise — a `noteoff` at `t` is recorded and the active note is
cleared. -/
theorem C2_termination_three_cases (s : CState) (t : Time) (ch note : Nat) :
    (lookupA s.active (ch, note) = none →
      handleNoteOff t ch note s =
        { s with events := s.events ++ [Ev.noteoff ch note t] }) ∧
    (∀ a, lookupA s.active (ch, note) = some a →
      sustainGet s.sustain ch = true →
      (handleNoteOff t ch note s).events =
          s.events ++ [Ev.noteoffDeferred ch note t] ∧
        (handleNoteOff t ch note s).active = s.active ∧
        (handleNoteOff t ch note s).sustain = s.sustain ∧
        (∀ ch' k, k ∈ pendGet (handleNoteOff t ch note s).pendingRelease ch' ↔
          k ∈ pendGet s.pendingRelease ch' ∨ (ch' = ch ∧ k = (ch, note))) ∧
        (handleNoteOff t ch note s).takes = s.takes ∧
        (handleNoteOff t ch note s).currentTake = s.currentTake) ∧
    (∀ a, lookupA s.active (ch, note) = some a →
      sustainGet s.sustain ch = false →
      (handleNoteOff t ch note s).events = s.events ++ [Ev.noteoff ch note t] ∧
        ((keysOf s.active).Nodup →
          lookupA (handleNoteOff t ch note s).active (ch, note) = none) ∧
        (∀ k, k ≠ (ch, note) →
          lookupA (handleNoteOff t ch note s).active k = lookupA s.active k) ∧
        (handleNoteOff t ch note s).sustain = s.sustain ∧
        (handleNoteOff t ch note s).pendingRelease = s.pendingRelease ∧
        (handleNoteOff t ch note s).takes = s.takes ∧
        (handleNoteOff t ch note s).currentTake = s.currentTake) := by
  refine ⟨fun hnone => ?_, fun a ha hsus => ?_, fun a ha hsus => ?_⟩
  · unfold handleNoteOff
    rw [hnone]
  · have hstep : handleNoteOff t ch note s =
        { s with
          pendingRelease :=
            setA s.pendingRelease ch
              (addKey (pendGet s.pendingRelease ch) (ch, note)),
          events := s.events ++ [Ev.noteoffDeferred ch note t] } := by
      unfold handleNoteOff
      rw [ha]
      simp only [hsus, if_true]
    rw [hstep]
    refine ⟨rfl, rfl, rfl, ?_, rfl, rfl⟩
    intro ch' k
    by_cases hch : ch' = ch
    · subst hch
      simp only [pendGet, lookupA_setA_self, Option.getD_some]
      rw [mem_addKey]
      simp
    · simp only [pendGet]
      rw [lookupA_setA_ne _ _ _ _ hch]
      simp [hch]
  · have hstep : handleNoteOff t ch note s =
        { s with events := s.events ++ [Ev.noteoff ch note t],
                 active := delA s.active (ch, note) } := by
      unfold handleNoteOff
      rw [ha]
      simp only [hsus, Bool.false_eq_true, if_false]
    rw [hstep]
    exact ⟨rfl, fun hnd => lookupA_delA_self _ _ hnd,
      fun k hk => lookupA_delA_ne _ _ _ hk, rfl, rfl, rfl, rfl⟩

/-- Orphan instance used by the C2 witness: terminating a note that was
never active records a pass-through `noteoff` and leaves the state
otherwise unchanged. -/
theorem C2_termination_witness :
    (lookupA initCState.active (1, 60) = none ∧
      handleNoteOff 7 1 60 initCState =
        { initCState with events := [Ev.noteoff 1 60 7] }) :=
  ⟨rfl, (C2_termination_three_cases initCState 7 1 60).1 rfl⟩

/-- Claim C9: orphan terminations are never errors and never produce
notes.  At ingest, a termination with no matching active note only
appends a pass-through `noteoff` event; during reconstruction, a
`noteoff` or `noteoff_deferred` whose key has no locally active note
leaves the replay state untouched; and the spec's Scenario C (isolated
NoteOff at t = 5) reconstructs to zero intervals. -/
theorem C9_orphan_terminations_harmless :
    (∀ (s : CState) (t : Time) (ch note : Nat),
      lookupA s.active (ch, note) = none →
      handleNoteOff t ch note s =
        { s with events := s.events ++ [Ev.noteoff ch note t] }) ∧
    (∀ (windowStart windowEnd : Time) (s : RecState) (ch note : Nat)
      (t : Time), lookupA s.active (ch, note) = none →
      rstep windowStart windowEnd s (Ev.noteoff ch note t) = s ∧
        rstep windowStart windowEnd s (Ev.noteoffDeferred ch note t) = s) ∧
    (reconstructNotesFlat [Ev.noteoff 1 72 5] 0 100 = [] ∧
      reconstructNotes false [Ev.noteoff 1 72 5] 0 100 = []) := by
  refine ⟨fun s t ch note hnone => ?_, fun ws we s ch note t hnone => ⟨?_, ?_⟩,
    by decide, by decide⟩
  · unfold handleNoteOff
    rw [hnone]
  · simp only [rstep]
    rw [hnone]
  · simp only [rstep]
    rw [hnone]

/-- Scenario C instance of C9: handling the isolated orphan noteoff at
ingest just records the pass-through event. -/
theorem C9_orphan_witness :
    lookupA initCState.active (1, 72) = none ∧
      handleNoteOff 5 1 72 initCState =
        { initCState with events := [Ev.noteoff 1 72 5] } :=
  ⟨rfl, C9_orphan_terminations_harmless.1 initCState 5 1 72 rfl⟩

@[simp] theorem markActivity_events (t : Time) (s : CState) :
    (markActivity t s).events = s.events := by
  cases h : s.currentTake <;> simp [markActivity, h]

@[simp] theorem markActivity_active (t : Time) (s : CState) :
    (markActivity t s).active = s.active := by
  cases h : s.currentTake <;> simp [markActivity, h]

@[simp] theorem markActivity_sustain (t : Time) (s : CState) :
    (markActivity t s).sustain = s.sustain := by
  cases h : s.currentTake <;> simp [markActivity, h]

@[simp] theorem markActivity_pendingRelease (t : Time) (s : CState) :
    (markActivity t s).pendingRelease = s.pendingRelease := by
  cases h : s.currentTake <;> simp [markActivity, h]

@[simp] theorem markActivity_takes (t : Time) (s : CState) :
    (markActivity t s).takes = s.takes := by
  cases h : s.currentTake <;> simp [markActivity, h]

@[simp] theorem startTake_events (t : Time) (s : CState) :
    (startTake t s).events = s.events := by
  cases h : s.currentTake <;> simp [startTake, h]

@[simp] theorem startTake_active (t : Time) (s : CState) :
    (startTake t s).active = s.active := by
  cases h : s.currentTake <;> simp [startTake, h]

@[simp] theorem startTake_sustain (t : Time) (s : CState) :
    (startTake t s).sustain = s.sustain := by
  cases h : s.currentTake <;> simp [startTake, h]

@[simp] theorem startTake_pendingRelease (t : Time) (s : CState) :
    (startTake t s).pendingRelease = s.pendingRelease := by
  cases h : s.currentTake <;> simp [startTake, h]

@[simp] theorem startTake_takes (t : Time) (s : CState) :
    (startTake t s).takes = s.takes := by
  cases h : s.currentTake <;> simp [startTake, h]

theorem lookupA_delA_of_none {K V : Type} [DecidableEq K]
    {l : List (K × V)} {k k0 : K} (h : lookupA l k = none) :
    lookupA (delA l k0) k = none := by
  induction l with
  | nil => simp [delA, lookupA]
  | cons hd tl ih =>
    obtain ⟨k1, v1⟩ := hd
    by_cases h1 : k1 = k
    · subst h1
      simp [lookupA] at h
    · rw [lookupA, if_neg h1] at h
      by_cases h0 : k1 = k0
      · rw [delA, if_pos h0]
        exact h
      · rw [delA, if_neg h0, lookupA, if_neg h1]
        exact ih h

theorem keysOf_delA_sublist {K V : Type} [DecidableEq K]
    (l : List (K × V)) (k : K) :
    (keysOf (delA l k)).Sublist (keysOf l) := by
  induction l with
  | nil => simp [delA]
  | cons hd tl ih =>
    obtain ⟨k1, v1⟩ := hd
    by_cases h1 : k1 = k
    · rw [delA, if_pos h1]
      exact List.sublist_cons_of_sublist _ (List.Sublist.refl _)
    · rw [delA, if_neg h1]
      exact List.Sublist.cons₂ _ ih

theorem iflushStep_pres (t : Time) (ch : Nat) (s : CState) (key : Nat × Nat) :
    (iflushStep t ch s key).pendingRelease = s.pendingRelease ∧
      (iflushStep t ch s key).sustain = s.sustain ∧
      (iflushStep t ch s key).takes = s.takes ∧
      (iflushStep t ch s key).currentTake = s.currentTake ∧
      (∀ e ∈ s.events, e ∈ (iflushStep t ch s key).events) ∧
      (∀ k, lookupA s.active k = none →
        lookupA (iflushStep t ch s key).active k = none) ∧
      ((keysOf s.active).Nodup → (keysOf (iflushStep t ch s key).active).Nodup) := by
  unfold iflushStep
  rcases hl : lookupA s.active key with _ | a
  · exact ⟨rfl, rfl, rfl, rfl, fun e he => he, fun k hk => hk, fun h => h⟩
  · refine ⟨rfl, rfl, rfl, rfl, fun e he => List.mem_append_left _ he,
      fun k hk => lookupA_delA_of_none hk,
      fun h => h.sublist (keysOf_delA_sublist _ _)⟩

theorem iflush_foldl_pres (t : Time) (ch : Nat) :
    ∀ (keys : List (Nat × Nat)) (s : CState),
      (keys.foldl (iflushStep t ch) s).pendingRelease = s.pendingRelease ∧
      (keys.foldl (iflushStep t ch) s).sustain = s.sustain ∧
      (keys.foldl (iflushStep t ch) s).takes = s.takes ∧
      (keys.foldl (iflushStep t ch) s).currentTake = s.currentTake ∧
      (∀ e ∈ s.events, e ∈ (keys.foldl (iflushStep t ch) s).events) ∧
      (∀ k, lookupA s.active k = none →
        lookupA (keys.foldl (iflushStep t ch) s).active k = none) ∧
      ((keysOf s.active).Nodup →
        (keysOf (keys.foldl (iflushStep t ch) s).active).Nodup) := by
  intro keys
  induction keys with
  | nil =>
    intro s
    exact ⟨rfl, rfl, rfl, rfl, fun e he => he, fun k hk => hk, fun h => h⟩
  | cons k0 rest ih =>
    intro s
    obtain ⟨hp, hsu, hta, hct, hev, hac, hnd⟩ := ih (iflushStep t ch s k0)
    obtain ⟨hp', hsu', hta', hct', hev', hac', hnd'⟩ := iflushStep_pres t ch s k0
    refine ⟨hp.trans hp', hsu.trans hsu', hta.trans hta', hct.trans hct',
      fun e he => hev e (hev' e he), fun k hk => hac k (hac' k hk),
      fun h => hnd (hnd' h)⟩

theorem iflush_foldl_spec (t : Time) (ch : Nat) :
    ∀ (keys : List (Nat × Nat)) (s : CState),
      (keysOf s.active).Nodup →
      (∀ k ∈ keys, (lookupA s.active k).isSome ∨
        (Ev.noteoff ch k.2 t ∈ s.events ∧ lookupA s.active k = none)) →
      ∀ k ∈ keys,
        Ev.noteoff ch k.2 t ∈ (keys.foldl (iflushStep t ch) s).events ∧
          lookupA (keys.foldl (iflushStep t ch) s).active k = none := by
  intro keys
  induction keys with
  | nil => intro s _ _ k hk; simp at hk
  | cons k0 rest ih =>
    intro s hnd hpre k hk
    obtain ⟨hp, hsu, hta, hct, hev, hac, hndf⟩ := iflush_foldl_pres t ch rest
      (iflushStep t ch s k0)
    obtain ⟨_, _, _, _, hev1, hac1, hnd1⟩ := iflushStep_pres t ch s k0
    have hnd' : (keysOf (iflushStep t ch s k0).active).Nodup := hnd1 hnd
    have hstep0 : Ev.noteoff ch k0.2 t ∈ (iflushStep t ch s k0).events ∧
        lookupA (iflushStep t ch s k0).active k0 = none := by
      rcases hpre k0 (List.mem_cons_self _ _) with hks | ⟨hke, hkn⟩
      · rcases Option.isSome_iff_exists.1 hks with ⟨a, ha⟩
        unfold iflushStep
        rw [ha]
        exact ⟨List.mem_append_right _ (List.mem_singleton.2 rfl),
          lookupA_delA_self _ _ hnd⟩
      · exact ⟨hev1 _ hke, hac1 _ hkn⟩
    have hpre' : ∀ k ∈ rest, (lookupA (iflushStep t ch s k0).active k).isSome ∨
        (Ev.noteoff ch k.2 t ∈ (iflushStep t ch s k0).events ∧
          lookupA (iflushStep t ch s k0).active k = none) := by
      intro k hk'
      rcases hpre k (List.mem_cons_of_mem _ hk') with hks | ⟨hke, hkn⟩
      · by_cases hkk : k = k0
        · subst hkk
          exact Or.inr ⟨hstep0.1, hstep0.2⟩
        · left
          unfold iflushStep
          rcases hl : lookupA s.active k0 with _ | a
          · exact hks
          · simpa [lookupA_delA_ne _ _ _ hkk] using hks
      · exact Or.inr ⟨hev1 _ hke, hac1 _ hkn⟩
    rcases List.mem_cons.1 hk with hk0 | hkr
    · subst hk0
      rw [List.foldl_cons]
      exact ⟨hev _ hstep0.1, hac _ hstep0.2⟩
    · rw [List.foldl_cons]
      exact ih (iflushStep t ch s k0) hnd' hpre' k hkr

theorem nibble176 : ∀ c : Nat, c < 16 →
    (176 + c) &&& 240 = 176 ∧ (176 + c) &&& 15 = c := by decide

/-- Reduction of `_onMIDIMessage` on a sustain pedal-up message
(`0xB0 | c`, controller 64, value < 64) arriving while the channel's
pedal is down: activity is marked, the `cc` event is recorded, the
pedal state is set to up, the channel's pending keys are flushed, and
the channel's pending set is cleared. -/
theorem onMIDI_pedal_up_eq (s : CState) (t : Time) (c val : Nat)
    (hc : c < 16) (hval : val < 64)
    (hdown : sustainGet s.sustain (c + 1) = true) :
    onMIDIMessage t [176 + c, 64, val] s =
      { (pendGet s.pendingRelease (c + 1)).foldl (iflushStep t (c + 1))
          { markActivity t s with
            events := s.events ++ [Ev.cc (c + 1) 64 val t],
            sustain := setA s.sustain (c + 1) false } with
        pendingRelease :=
          setA ((pendGet s.pendingRelease (c + 1)).foldl (iflushStep t (c + 1))
            { markActivity t s with
              events := s.events ++ [Ev.cc (c + 1) 64 val t],
              sustain := setA s.sustain (c + 1) false }).pendingRelease
            (c + 1) [] } := by
  have h240 := (nibble176 c hc).1
  have h15 := (nibble176 c hc).2
  have hnow : decide (64 ≤ val) = false := decide_eq_false (by omega)
  simp [onMIDIMessage, h240, h15, hnow, hdown]

/-- Claim C3: on a pedal-up edge (controller 64 message with value
below 64 while the channel's pedal is down), ingest emits a `noteoff`
at the pedal-up time `t` for every key in the channel's pending set
(given the live-state invariants: duplicate-free active keys and every
pending key backed by an active note), clears each corresponding
active note, and leaves the channel's pending set empty. -/
theorem C3_pedal_up_flush (s : CState) (t : Time) (c val : Nat)
    (hc : c < 16) (hval : val < 64)
    (hdown : sustainGet s.sustain (c + 1) = true)
    (hnd : (keysOf s.active).Nodup)
    (hinv : ∀ k ∈ pendGet s.pendingRelease (c + 1), (lookupA s.active k).isSome) :
    (∀ k ∈ pendGet s.pendingRelease (c + 1),
      Ev.noteoff (c + 1) k.2 t ∈ (onMIDIMessage t [176 + c, 64, val] s).events ∧
        lookupA (onMIDIMessage t [176 + c, 64, val] s).active k = none) ∧
      pendGet (onMIDIMessage t [176 + c, 64, val] s).pendingRelease (c + 1) = [] := by
  rw [onMIDI_pedal_up_eq s t c val hc hval hdown]
  have hact : ({ markActivity t s with
      events := s.events ++ [Ev.cc (c + 1) 64 val t],
      sustain := setA s.sustain (c + 1) false } : CState).active = s.active := by
    simp
  have hnd4 : (keysOf ({ markActivity t s with
      events := s.events ++ [Ev.cc (c + 1) 64 val t],
      sustain := setA s.sustain (c + 1) false } : CState).active).Nodup := by
    rw [hact]; exact hnd
  have hpre : ∀ k ∈ pendGet s.pendingRelease (c + 1),
      (lookupA ({ markActivity t s with
        events := s.events ++ [Ev.cc (c + 1) 64 val t],
        sustain := setA s.sustain (c + 1) false } : CState).active k).isSome ∨
      (Ev.noteoff (c + 1) k.2 t ∈ ({ markActivity t s with
          events := s.events ++ [Ev.cc (c + 1) 64 val t],
          sustain := setA s.sustain (c + 1) false } : CState).events ∧
        lookupA ({ markActivity t s with
          events := s.events ++ [Ev.cc (c + 1) 64 val t],
          sustain := setA s.sustain (c + 1) false } : CState).active k = none) := by
    intro k hk
    left
    rw [hact]
    exact hinv k hk
  have hmain := iflush_foldl_spec t (c + 1) (pendGet s.pendingRelease (c + 1))
    _ hnd4 hpre
  constructor
  · intro k hk
    exact hmain k hk
  · simp [pendGet, lookupA_setA_self]

/-- Concrete instance of C3: one active note (channel 1, note 60)
pending under the pedal; the pedal-up at t = 200 flushes it with a
`noteoff` at 200, clears the active note and empties the pending
set. -/
theorem C3_pedal_up_witness :
    ((0 : Nat) < 16 ∧ (0 : Nat) < 64 ∧
      sustainGet [(1, true)] 1 = true ∧
      (keysOf [((1, 60), ((0 : Time), 100))]).Nodup ∧
      (∀ k ∈ pendGet [(1, [(1, 60)])] 1,
        (lookupA [((1, 60), ((0 : Time), 100))] k).isSome)) ∧
    ((∀ k ∈ pendGet [(1, [(1, 60)])] 1,
      Ev.noteoff 1 k.2 200 ∈
          (onMIDIMessage 200 [176 + 0, 64, 0]
            ⟨[], [((1, 60), (0, 100))], [(1, true)], [(1, [(1, 60)])], [],
              some (0, 0), true⟩).events ∧
        lookupA (onMIDIMessage 200 [176 + 0, 64, 0]
            ⟨[], [((1, 60), (0, 100))], [(1, true)], [(1, [(1, 60)])], [],
              some (0, 0), true⟩).active k = none) ∧
      pendGet (onMIDIMessage 200 [176 + 0, 64, 0]
          ⟨[], [((1, 60), (0, 100))], [(1, true)], [(1, [(1, 60)])], [],
            some (0, 0), true⟩).pendingRelease 1 = []) :=
  ⟨⟨by decide, by decide, by decide, by decide, by decide⟩,
    C3_pedal_up_flush
      ⟨[], [((1, 60), (0, 100))], [(1, true)], [(1, [(1, 60)])], [],
        some (0, 0), true⟩
      200 0 0 (by decide) (by decide) (by decide) (by decide) (by decide)⟩

theorem nibble144 : ∀ c : Nat, c < 16 →
    (144 + c) &&& 240 = 144 ∧ (144 + c) &&& 15 = c := by decide

theorem nibble224 : ∀ c : Nat, c < 16 →
    (224 + c) &&& 240 = 224 ∧ (224 + c) &&& 15 = c := by decide

theorem nibble160 : ∀ c : Nat, c < 16 →
    (160 + c) &&& 240 = 160 ∧ (160 + c) &&& 15 = c := by decide

/-- Claim C5 fails on the code: a raw/unrecognized message (here
polyphonic aftertouch, status 0xA0) arriving at t = 5 while no take is
open is recorded as a `raw` event but does NOT open a take — the state
stays Idle, contradicting the claim that any activity-bearing event
(including raw messages) opens a Take with `startMs = t`. -/
theorem C5_raw_no_take_counterexample :
    initCState.currentTake = none ∧
      (onMIDIMessage 5 [160, 1, 1] initCState).currentTake = none ∧
      (onMIDIMessage 5 [160, 1, 1] initCState).events =
        [Ev.raw 1 [160, 1, 1] 5] := by
  decide

/-- Claim C5 as amended: with no take open, a note-on with positive
velocity, a control change with controller other than 64, a sustain
pedal-down edge (controller 64, value at least 64 while the channel's
pedal was up), or a pitch bend opens a Take with `startMs = t` and
arms the idle timer; a raw/unrecognized message (status nibble 0xA0
here) leaves the state Idle. -/
theorem C5_take_opening_amended (s : CState) (t : Time)
    (hnone : s.currentTake = none) :
    (∀ c note vel : Nat, c < 16 → 0 < vel →
      (onMIDIMessage t [144 + c, note, vel] s).currentTake = some (t, t) ∧
        (onMIDIMessage t [144 + c, note, vel] s).idleTimer = true) ∧
    (∀ c ccn val : Nat, c < 16 → ccn ≠ 64 →
      (onMIDIMessage t [176 + c, ccn, val] s).currentTake = some (t, t) ∧
        (onMIDIMessage t [176 + c, ccn, val] s).idleTimer = true) ∧
    (∀ c val : Nat, c < 16 → 64 ≤ val → sustainGet s.sustain (c + 1) = false →
      (onMIDIMessage t [176 + c, 64, val] s).currentTake = some (t, t) ∧
        (onMIDIMessage t [176 + c, 64, val] s).idleTimer = true) ∧
    (∀ c lsb msb : Nat, c < 16 →
      (onMIDIMessage t [224 + c, lsb, msb] s).currentTake = some (t, t) ∧
        (onMIDIMessage t [224 + c, lsb, msb] s).idleTimer = true) ∧
    (∀ c b1 b2 : Nat, c < 16 →
      (onMIDIMessage t [160 + c, b1, b2] s).currentTake = none) := by
  have hma : markActivity t s = s := by simp [markActivity, hnone]
  refine ⟨?_, ?_, ?_, ?_, ?_⟩
  · intro c note vel hc hvel
    have h1 := (nibble144 c hc).1
    have h2 := (nibble144 c hc).2
    constructor <;>
      simp [onMIDIMessage, h1, h2, hma, startTake, hnone, hvel]
  · intro c ccn val hc hccn
    have h1 := (nibble176 c hc).1
    have h2 := (nibble176 c hc).2
    constructor <;>
      simp [onMIDIMessage, h1, h2, hma, startTake, hnone, hccn]
  · intro c val hc hval hsus
    have h1 := (nibble176 c hc).1
    have h2 := (nibble176 c hc).2
    have hnow : decide (64 ≤ val) = true := decide_eq_true hval
    constructor <;>
      simp [onMIDIMessage, h1, h2, hma, startTake, hnone, hsus, hnow]
  · intro c lsb msb hc
    have h1 := (nibble224 c hc).1
    have h2 := (nibble224 c hc).2
    constructor <;>
      simp [onMIDIMessage, h1, h2, hma, startTake, hnone]
  · intro c b1 b2 hc
    have h1 := (nibble160 c hc).1
    have h2 := (nibble160 c hc).2
    simp [onMIDIMessage, h1, h2, hma, hnone]

/-- Instance of the amended C5: the first played note (channel 1,
note 60, velocity 100 at t = 3) opens a take starting at 3 and arms
the idle timer. -/
theorem C5_take_opening_witness :
    (initCState.currentTake = none ∧ (0 : Nat) < 16 ∧ (0 : Nat) < 100) ∧
      ((onMIDIMessage 3 [144 + 0, 60, 100] initCState).currentTake =
          some (3, 3) ∧
        (onMIDIMessage 3 [144 + 0, 60, 100] initCState).idleTimer = true) :=
  ⟨⟨rfl, by decide, by decide⟩,
    (C5_take_opening_amended initCState 3 rfl).1 0 60 100 (by decide)
      (by decide)⟩

/-- `clear()`: empty the event buffer, wipe the active/sustain/pending
maps, cancel the idle timer, drop the open take without closing it and
empty the closed-take list.  (UI refresh and persisted-state wipe are
side effects outside the data model.) -/
def clear (s : CState) : CState :=
  { s with events := [], active := [], sustain := [], pendingRelease := [],
           idleTimer := false, currentTake := none, takes := [] }

/-- Claim C10: after `clear()` the event log, active-note map, sustain
map, pending sets, and closed-take list are empty, the open take is
discarded without being appended, the idle timer is cancelled, and
reconstruction over any window of the cleared buffer yields no
intervals. -/
theorem C10_clear_resets_everything (s : CState) :
    (clear s).events = [] ∧ (clear s).active = [] ∧
      (clear s).sustain = [] ∧ (clear s).pendingRelease = [] ∧
      (clear s).currentTake = none ∧ (clear s).takes = [] ∧
      (clear s).idleTimer = false ∧
      (∀ (gb : Bool) (windowStart windowEnd : Time),
        reconstructNotes gb (clear s).events windowStart windowEnd = []) :=
  ⟨rfl, rfl, rfl, rfl, rfl, rfl, rfl, fun _ _ _ => rfl⟩

/-! ## MIDI export (`_buildMidi` / `msToTicks`) -/

/-- The fixed pulses-per-quarter-note resolution. -/
def PPQ : ℚ := 128

/-- `msToTicks(ms, bpm, ppq) = Math.max(1, Math.round(ms/60000 * (bpm*ppq)))`
(`Math.round` rounds half-up, as does Mathlib's `round` on ℚ). -/
def msToTicks (ms : Time) (bpm ppq : ℚ) : ℤ :=
  max 1 (round (ms / 60000 * (bpm * ppq)))

/-- One step of `_buildMidi`'s scan for the earliest note start: an
empty track is skipped, otherwise its first note's `startMs` is
compared with the running minimum (`none` plays the role of
`Infinity`). -/
def t0Step (acc : Option Time) (p : TrackKey × List Note) : Option Time :=
  match p.2 with
  | [] => acc
  | n :: _ =>
    match acc with
    | none => some n.startMs
    | some v => if n.startMs < v then some n.startMs else some v

/-- `_t0Global`: the earliest first-note start across all tracks,
defaulting to 0 when every track is empty (`Number.isFinite` guard). -/
def t0Global (tracks : List (TrackKey × List Note)) : Time :=
  (tracks.foldl t0Step none).getD 0

/-- The re-based start `n.startMs - _t0Global` fed to `msToTicks` for
the note's tick position. -/
def rebasedStart (tracks : List (TrackKey × List Note)) (n : Note) : Time :=
  n.startMs - t0Global tracks

/-- `startTick = msToTicks(n.startMs - _t0Global, bpm, PPQ)`. -/
def startTick (tracks : List (TrackKey × List Note)) (bpm : ℚ) (n : Note) : ℤ :=
  msToTicks (rebasedStart tracks n) bpm PPQ

theorem t0Step_nil {acc : Option Time} {p : TrackKey × List Note}
    (hp : p.2 = []) : t0Step acc p = acc := by
  simp [t0Step, hp]

theorem t0Step_cons_none {p : TrackKey × List Note} {n : Note}
    {tl : List Note} (hp : p.2 = n :: tl) :
    t0Step none p = some n.startMs := by
  simp [t0Step, hp]

theorem t0Step_cons_some {p : TrackKey × List Note} {n : Note}
    {tl : List Note} {v0 : Time} (hp : p.2 = n :: tl) :
    t0Step (some v0) p =
      if n.startMs < v0 then some n.startMs else some v0 := by
  simp [t0Step, hp]

theorem t0fold_le_acc :
    ∀ (tracks : List (TrackKey × List Note)) (acc : Option Time)
      (v0 : Time), acc = some v0 →
      ∀ v, tracks.foldl t0Step acc = some v → v ≤ v0 := by
  intro tracks
  induction tracks with
  | nil =>
    intro acc v0 hacc v hv
    rw [List.foldl_nil, hacc] at hv
    injection hv with h
    exact le_of_eq h.symm
  | cons p rest ih =>
    intro acc v0 hacc v hv
    rw [List.foldl_cons] at hv
    rcases hp : p.2 with _ | ⟨n, tl⟩
    · exact ih (t0Step acc p) v0 ((t0Step_nil hp).trans hacc) v hv
    · subst hacc
      rw [t0Step_cons_some hp] at hv
      by_cases hlt : n.startMs < v0
      · rw [if_pos hlt] at hv
        exact le_trans (ih _ n.startMs rfl v hv) (le_of_lt hlt)
      · rw [if_neg hlt] at hv
        exact ih _ v0 rfl v hv

theorem t0fold_le_head :
    ∀ (tracks : List (TrackKey × List Note)) (acc : Option Time)
      (p : TrackKey × List Note), p ∈ tracks →
      ∀ (hd : Note) (tl : List Note), p.2 = hd :: tl →
      ∀ v, tracks.foldl t0Step acc = some v → v ≤ hd.startMs := by
  intro tracks
  induction tracks with
  | nil => intro acc p hp; simp at hp
  | cons p0 rest ih =>
    intro acc p hp hd tl hptl v hv
    rw [List.foldl_cons] at hv
    rcases List.mem_cons.1 hp with hp0 | hpr
    · subst hp0
      rcases acc with _ | v0
      · rw [t0Step_cons_none hptl] at hv
        exact t0fold_le_acc rest _ hd.startMs rfl v hv
      · rw [t0Step_cons_some hptl] at hv
        by_cases hlt : hd.startMs < v0
        · rw [if_pos hlt] at hv
          exact t0fold_le_acc rest _ hd.startMs rfl v hv
        · rw [if_neg hlt] at hv
          exact le_trans (t0fold_le_acc rest _ v0 rfl v hv)
            (le_of_not_lt hlt)
    · exact ih (t0Step acc p0) p hpr hd tl hptl v hv

theorem t0fold_none :
    ∀ (tracks : List (TrackKey × List Note)) (acc : Option Time),
      tracks.foldl t0Step acc = none →
      acc = none ∧ ∀ p ∈ tracks, p.2 = [] := by
  intro tracks
  induction tracks with
  | nil =>
    intro acc hacc
    exact ⟨hacc, by simp⟩
  | cons p0 rest ih =>
    intro acc hf
    rw [List.foldl_cons] at hf
    obtain ⟨hstep, hrest⟩ := ih (t0Step acc p0) hf
    have hp0 : p0.2 = [] ∧ acc = none := by
      rcases hp : p0.2 with _ | ⟨n, tl⟩
      · exact ⟨rfl, (t0Step_nil hp).symm.trans hstep⟩
      · rcases ha : acc with _ | v0
        · rw [ha, t0Step_cons_none hp] at hstep
          simp at hstep
        · rw [ha, t0Step_cons_some hp] at hstep
          by_cases hlt : n.startMs < v0
          · rw [if_pos hlt] at hstep; simp at hstep
          · rw [if_neg hlt] at hstep; simp at hstep
    refine ⟨hp0.2, fun p hp => ?_⟩
    rcases List.mem_cons.1 hp with h | h
    · exact h ▸ hp0.1
    · exact hrest p h

theorem t0fold_attained :
    ∀ (tracks : List (TrackKey × List Note)) (acc : Option Time) (v : Time),
      tracks.foldl t0Step acc = some v →
      acc = some v ∨
        ∃ p ∈ tracks, ∃ hd : Note, ∃ tl, p.2 = hd :: tl ∧ hd.startMs = v := by
  intro tracks
  induction tracks with
  | nil =>
    intro acc v hv
    rw [List.foldl_nil] at hv
    exact Or.inl hv
  | cons p0 rest ih =>
    intro acc v hv
    rw [List.foldl_cons] at hv
    rcases ih (t0Step acc p0) v hv with hacc | ⟨p, hp, hd, tl, hptl, hhd⟩
    · rcases hp : p0.2 with _ | ⟨n, ntl⟩
      · exact Or.inl ((t0Step_nil hp).symm.trans hacc)
      · rcases ha : acc with _ | v0
        · rw [ha, t0Step_cons_none hp] at hacc
          right
          exact ⟨p0, List.mem_cons_self _ _, n, ntl, hp,
            Option.some_injective _ hacc⟩
        · rw [ha, t0Step_cons_some hp] at hacc
          by_cases hlt : n.startMs < v0
          · rw [if_pos hlt] at hacc
            right
            exact ⟨p0, List.mem_cons_self _ _, n, ntl, hp,
              Option.some_injective _ hacc⟩
          · rw [if_neg hlt] at hacc
            exact Or.inl (ha ▸ hacc)
    · exact Or.inr ⟨p, List.mem_cons_of_mem _ hp, hd, tl, hptl, hhd⟩

/-- Claim C7 fails on the code as stated: with one track holding notes
starting at 0 ms and 1000 ms and bpm 120 (PPQ 128), the encoded onset
ticks are 1 and 256 (the earliest onset is lifted to 1 by the
`max(1, ...)` floor), so the encoded offset is 255 ticks while the
pre-encoding offset of 1000 ms corresponds to exactly 256 ticks — the
relative time offset between the two onsets is NOT unchanged by
encoding. -/
theorem C7_tick_offset_counterexample :
    startTick [(TrackKey.main,
        [(⟨1, 60, 0, 500, 100⟩ : Note), ⟨1, 62, 1000, 1500, 100⟩])] 120
        ⟨1, 62, 1000, 1500, 100⟩ -
      startTick [(TrackKey.main,
        [(⟨1, 60, 0, 500, 100⟩ : Note), ⟨1, 62, 1000, 1500, 100⟩])] 120
        ⟨1, 60, 0, 500, 100⟩ = 255 ∧
    (((⟨1, 62, 1000, 1500, 100⟩ : Note).startMs -
        (⟨1, 60, 0, 500, 100⟩ : Note).startMs) / 60000 * (120 * PPQ) = 256) ∧
    (255 : ℚ) ≠ 256 := by
  refine ⟨?_, by norm_num [PPQ], by norm_num⟩
  have ht0 : t0Global [(TrackKey.main,
      [(⟨1, 60, 0, 500, 100⟩ : Note), ⟨1, 62, 1000, 1500, 100⟩])] = 0 := by
    simp [t0Global, t0Step]
  rw [startTick, startTick, rebasedStart, rebasedStart, ht0, msToTicks,
    msToTicks]
  norm_num [PPQ, round_eq]

/-- Claim C7 as amended: encoding re-bases every interval of every
track against the single global minimum start time across all tracks
(`_t0Global` scans first notes only, so each track must be sorted by
start, as reconstruction guarantees): the re-basing offset is a true
global minimum, it is attained unless all tracks are empty, and the
re-based millisecond offsets between any two onsets (same or different
tracks) are unchanged; after tick conversion the offset is preserved
only up to rounding and the 1-tick minimum, not exactly. -/
theorem C7_rebasing_amended (tracks : List (TrackKey × List Note))
    (hsorted : ∀ r ∈ tracks, r.2.Sorted (fun a b => a.startMs ≤ b.startMs)) :
    (∀ p ∈ tracks, ∀ n ∈ p.2, t0Global tracks ≤ n.startMs) ∧
    ((∀ r ∈ tracks, r.2 = []) ∨
      ∃ p ∈ tracks, ∃ x ∈ p.2, x.startMs = t0Global tracks) ∧
    (∀ p ∈ tracks, ∀ q ∈ tracks, ∀ n ∈ p.2, ∀ m ∈ q.2,
      rebasedStart tracks n - rebasedStart tracks m =
        n.startMs - m.startMs) := by
  refine ⟨?_, ?_, ?_⟩
  · intro p hp n hn
    rcases hp2 : p.2 with _ | ⟨hd, tl⟩
    · rw [hp2] at hn; simp at hn
    · rcases hf : tracks.foldl t0Step none with _ | v
      · have := (t0fold_none tracks none hf).2 p hp
        rw [hp2] at this; simp at this
      · have hle : v ≤ hd.startMs := t0fold_le_head tracks none p hp hd tl hp2 v hf
        have ht0 : t0Global tracks = v := by simp [t0Global, hf]
        have hsort := hsorted p hp
        rw [hp2] at hsort
        rw [hp2] at hn
        rcases List.mem_cons.1 hn with h | h
        · rw [ht0, h]; exact hle
        · rw [ht0]
          exact le_trans hle ((List.sorted_cons.1 hsort).1 n h)
  · rcases hf : tracks.foldl t0Step none with _ | v
    · exact Or.inl (t0fold_none tracks none hf).2
    · rcases t0fold_attained tracks none v hf with h | ⟨p, hp, hd, tl, hptl, hhd⟩
      · simp at h
      · right
        refine ⟨p, hp, hd, ?_, ?_⟩
        · rw [hptl]; exact List.mem_cons_self _ _
        · simp [t0Global, hf, hhd]
  · intro p hp q hq n hn m hm
    unfold rebasedStart
    ring

/-- Instance of the amended C7 on a concrete sorted track pair. -/
theorem C7_rebasing_witness :
    (∀ r ∈ [(TrackKey.main, [(⟨1, 60, 0, 500, 100⟩ : Note)]),
        (TrackKey.chTrack 2, [(⟨2, 64, 300, 900, 90⟩ : Note)])],
      r.2.Sorted (fun a b => a.startMs ≤ b.startMs)) ∧
    ((∀ p ∈ [(TrackKey.main, [(⟨1, 60, 0, 500, 100⟩ : Note)]),
        (TrackKey.chTrack 2, [(⟨2, 64, 300, 900, 90⟩ : Note)])],
      ∀ n ∈ p.2,
        t0Global [(TrackKey.main, [(⟨1, 60, 0, 500, 100⟩ : Note)]),
          (TrackKey.chTrack 2, [(⟨2, 64, 300, 900, 90⟩ : Note)])] ≤
          n.startMs) ∧
      ((∀ r ∈ [(TrackKey.main, [(⟨1, 60, 0, 500, 100⟩ : Note)]),
          (TrackKey.chTrack 2, [(⟨2, 64, 300, 900, 90⟩ : Note)])], r.2 = []) ∨
        ∃ p ∈ [(TrackKey.main, [(⟨1, 60, 0, 500, 100⟩ : Note)]),
          (TrackKey.chTrack 2, [(⟨2, 64, 300, 900, 90⟩ : Note)])],
          ∃ x ∈ p.2,
            x.startMs =
              t0Global [(TrackKey.main, [(⟨1, 60, 0, 500, 100⟩ : Note)]),
                (TrackKey.chTrack 2, [(⟨2, 64, 300, 900, 90⟩ : Note)])]) ∧
      (∀ p ∈ [(TrackKey.main, [(⟨1, 60, 0, 500, 100⟩ : Note)]),
          (TrackKey.chTrack 2, [(⟨2, 64, 300, 900, 90⟩ : Note)])],
        ∀ q ∈ [(TrackKey.main, [(⟨1, 60, 0, 500, 100⟩ : Note)]),
          (TrackKey.chTrack 2, [(⟨2, 64, 300, 900, 90⟩ : Note)])],
        ∀ n ∈ p.2, ∀ m ∈ q.2,
          rebasedStart [(TrackKey.main, [(⟨1, 60, 0, 500, 100⟩ : Note)]),
              (TrackKey.chTrack 2, [(⟨2, 64, 300, 900, 90⟩ : Note)])] n -
            rebasedStart [(TrackKey.main, [(⟨1, 60, 0, 500, 100⟩ : Note)]),
              (TrackKey.chTrack 2, [(⟨2, 64, 300, 900, 90⟩ : Note)])] m =
            n.startMs - m.startMs)) :=
  have hs : ∀ r ∈ [(TrackKey.main, [(⟨1, 60, 0, 500, 100⟩ : Note)]),
      (TrackKey.chTrack 2, [(⟨2, 64, 300, 900, 90⟩ : Note)])],
      r.2.Sorted (fun a b => a.startMs ≤ b.startMs) := by
    intro r hr
    rcases List.mem_cons.1 hr with h | h
    · subst h; simp [List.sorted_singleton]
    · rcases List.mem_cons.1 h with h' | h'
      · subst h'; simp [List.sorted_singleton]
      · simp at h'
  ⟨hs, C7_rebasing_amended _ hs⟩

/-! ## Sustain-free well-paired slices (claim C4) -/

theorem mem_keysOf_of_isSome {K V : Type} [DecidableEq K]
    {l : List (K × V)} {k : K} (h : (lookupA l k).isSome) : k ∈ keysOf l := by
  rcases Option.isSome_iff_exists.1 h with ⟨v, hv⟩
  exact List.mem_map_of_mem Prod.fst (lookupA_mem hv)

theorem not_mem_keysOf_delA {K V : Type} [DecidableEq K]
    {l : List (K × V)} {k : K} (hnd : (keysOf l).Nodup) :
    k ∉ keysOf (delA l k) := by
  intro hmem
  have h1 := lookupA_isSome_of_mem_keys hmem
  rw [lookupA_delA_self l k hnd] at h1
  simp at h1

theorem mem_keysOf_delA_iff {K V : Type} [DecidableEq K]
    {l : List (K × V)} {k x : K} (hx : x ≠ k) :
    x ∈ keysOf (delA l k) ↔ x ∈ keysOf l := by
  constructor
  · intro h
    exact (keysOf_delA_sublist l k).subset h
  · intro h
    have h1 := lookupA_isSome_of_mem_keys h
    rw [← lookupA_delA_ne l k x hx] at h1
    exact mem_keysOf_of_isSome h1

theorem setA_of_not_mem {K V : Type} [DecidableEq K]
    {l : List (K × V)} {k : K} {v : V} (h : k ∉ keysOf l) :
    setA l k v = l ++ [(k, v)] := by
  induction l with
  | nil => simp [setA]
  | cons hd tl ih =>
    obtain ⟨k0, v0⟩ := hd
    simp only [keysOf, List.map_cons, List.mem_cons] at h
    push_neg at h
    have hne : k0 ≠ k := fun hh => h.1 hh.symm
    rw [setA, if_neg hne, ih (by simpa [keysOf] using h.2)]
    rfl

theorem delA_length_of_mem {K V : Type} [DecidableEq K]
    {l : List (K × V)} {k : K} (h : k ∈ keysOf l) :
    (delA l k).length + 1 = l.length := by
  induction l with
  | nil => simp [keysOf] at h
  | cons hd tl ih =>
    obtain ⟨k0, v0⟩ := hd
    by_cases h0 : k0 = k
    · rw [delA, if_pos h0]
      rfl
    · simp only [keysOf, List.map_cons, List.mem_cons] at h
      rcases h with h | h
      · exact absurd h.symm h0
      · rw [delA, if_neg h0]
        simp only [List.length_cons]
        rw [← ih (by simpa [keysOf] using h)]

/-- With both endpoints already inside the window and a positive
duration, `pushNote` appends exactly the unclamped interval. -/
theorem pushNote_exact {windowStart windowEnd tOn t : Time} {ch note vel : Nat}
    {notes : List Note} (h1 : windowStart ≤ tOn) (h2 : tOn < t)
    (h3 : t ≤ windowEnd) :
    pushNote windowStart windowEnd ch note tOn t vel notes =
      notes ++ [⟨ch, note, tOn, t, vel⟩] := by
  unfold pushNote
  have hm1 : min windowEnd tOn = tOn := min_eq_right (le_trans (le_of_lt h2) h3)
  have hm2 : max windowStart tOn = tOn := max_eq_right h1
  have hm3 : min windowEnd t = t := min_eq_right h3
  have hm4 : max windowStart t = t := max_eq_right (le_trans h1 (le_of_lt h2))
  rw [hm1, hm2, hm3, hm4, if_pos h2]

/-- The set of keys of the local active map. -/
def keyset (l : List ((Nat × Nat) × (Time × Nat))) : Finset (Nat × Nat) :=
  (keysOf l).toFinset

theorem mem_keyset {l : List ((Nat × Nat) × (Time × Nat))} {k : Nat × Nat} :
    k ∈ keyset l ↔ k ∈ keysOf l :=
  List.mem_toFinset

theorem keyset_append_single (l : List ((Nat × Nat) × (Time × Nat)))
    (k : Nat × Nat) (v : Time × Nat) :
    keyset (l ++ [(k, v)]) = insert k (keyset l) := by
  ext x
  simp [keyset, keysOf, Or.comm]

theorem keyset_delA {l : List ((Nat × Nat) × (Time × Nat))} {k : Nat × Nat}
    (hnd : (keysOf l).Nodup) : keyset (delA l k) = (keyset l).erase k := by
  ext x
  simp only [mem_keyset, Finset.mem_erase, mem_keyset]
  constructor
  · intro h
    have hx : x ≠ k := by
      intro hh
      exact not_mem_keysOf_delA hnd (hh ▸ h)
    exact ⟨hx, (mem_keysOf_delA_iff hx).1 h⟩
  · rintro ⟨hx, h⟩
    exact (mem_keysOf_delA_iff hx).2 h

/-- Well-paired, sustain-free event slices: only note-ons of
not-currently-open keys and note-offs of currently-open keys, with
every opened key closed by the end. -/
def wfEvents (opens : Finset (Nat × Nat)) : List Ev → Bool
  | [] => decide (opens = ∅)
  | e :: es =>
    match e with
    | .noteon ch note _ _ =>
      if (ch, note) ∈ opens then false
      else wfEvents (insert (ch, note) opens) es
    | .noteoff ch note _ =>
      if (ch, note) ∈ opens then wfEvents (opens.erase (ch, note)) es
      else false
    | _ => false

theorem wfEvents_nil_iff {opens : Finset (Nat × Nat)} :
    wfEvents opens [] = true ↔ opens = ∅ := by
  simp [wfEvents]

theorem wfEvents_noteon_iff {opens : Finset (Nat × Nat)}
    {ch note vel : Nat} {t : Time} {es : List Ev} :
    wfEvents opens (Ev.noteon ch note vel t :: es) = true ↔
      (ch, note) ∉ opens ∧
        wfEvents (insert (ch, note) opens) es = true := by
  by_cases h : (ch, note) ∈ opens <;> simp [wfEvents, h]

theorem wfEvents_noteoff_iff {opens : Finset (Nat × Nat)}
    {ch note : Nat} {t : Time} {es : List Ev} :
    wfEvents opens (Ev.noteoff ch note t :: es) = true ↔
      (ch, note) ∈ opens ∧
        wfEvents (opens.erase (ch, note)) es = true := by
  by_cases h : (ch, note) ∈ opens <;> simp [wfEvents, h]

theorem rstep_noteon_eq (windowStart windowEnd : Time) (s : RecState)
    (ch note vel : Nat) (t : Time) :
    rstep windowStart windowEnd s (Ev.noteon ch note vel t) =
      { s with active := setA s.active (ch, note) (t, vel) } := rfl

theorem rstep_noteoff_close {windowStart windowEnd : Time} {s : RecState}
    {ch note : Nat} {t : Time} {st : Time × Nat}
    (hl : lookupA s.active (ch, note) = some st)
    (hs : sustainGet s.sustain ch = false) :
    rstep windowStart windowEnd s (Ev.noteoff ch note t) =
      { s with notes := pushNote windowStart windowEnd ch note st.1 t st.2 s.notes,
               active := delA s.active (ch, note) } := by
  simp only [rstep, hl, hs]
  simp

/-- Replaying a well-paired, sustain-free slice with strictly
increasing in-window times from a state whose active notes all predate
the slice: the replay closes everything, and the emitted batch has one
interval per note-on (plus closures of the initially active notes),
each interval running from its note-on to the first same-key event
after it, which is its matching note-off. -/
theorem replay_wf_spec (windowStart windowEnd : Time) :
    ∀ (es : List Ev) (s : RecState),
      s.sustain = [] →
      (keysOf s.active).Nodup →
      wfEvents (keyset s.active) es = true →
      es.Pairwise (fun a b => evTime a < evTime b) →
      (∀ e ∈ es, windowStart ≤ evTime e ∧ evTime e ≤ windowEnd) →
      (∀ kv ∈ s.active, windowStart ≤ kv.2.1 ∧ ∀ e ∈ es, kv.2.1 < evTime e) →
      (es.foldl (rstep windowStart windowEnd) s).active = [] ∧
        (es.foldl (rstep windowStart windowEnd) s).sustain = [] ∧
        ∃ Δ, (es.foldl (rstep windowStart windowEnd) s).notes = s.notes ++ Δ ∧
          Δ.length = es.countP isNoteOnB + s.active.length ∧
          ∀ n ∈ Δ,
            (Ev.noteon n.ch n.note n.vel n.startMs ∈ es ∨
              ((n.ch, n.note), (n.startMs, n.vel)) ∈ s.active) ∧
            Ev.noteoff n.ch n.note n.endMs ∈ es ∧
            n.startMs < n.endMs ∧
            ∀ e ∈ es, evKey e = some (n.ch, n.note) →
              evTime e ≤ n.startMs ∨ n.endMs ≤ evTime e := by
  intro es
  induction es with
  | nil =>
    intro s hsus hnd hwf hpw hbdd hA
    have hempty : s.active = [] := by
      have h0 : keyset s.active = ∅ := wfEvents_nil_iff.1 hwf
      have h1 : keysOf s.active = [] := by
        rw [keyset] at h0
        exact List.toFinset_eq_empty_iff _ |>.1 h0
      exact List.map_eq_nil_iff.1 h1
    rw [List.foldl_nil]
    exact ⟨hempty, hsus, [], by simp, by simp [hempty], by simp⟩
  | cons e es' ih =>
    intro s hsus hnd hwf hpw hbdd hA
    obtain ⟨hhd, hpw'⟩ := List.pairwise_cons.1 hpw
    have hbdd' : ∀ e' ∈ es', windowStart ≤ evTime e' ∧ evTime e' ≤ windowEnd :=
      fun e' he' => hbdd e' (List.mem_cons_of_mem _ he')
    have hbd0 := hbdd e (List.mem_cons_self _ _)
    cases e with
    | noteon ch note vel t =>
      obtain ⟨hfresh, hwf'⟩ := wfEvents_noteon_iff.1 hwf
      have hfreshL : (ch, note) ∉ keysOf s.active :=
        fun h => hfresh (mem_keyset.2 h)
      have hset : setA s.active (ch, note) (t, vel) =
          s.active ++ [((ch, note), (t, vel))] := setA_of_not_mem hfreshL
      have hnd2 : (keysOf (setA s.active (ch, note) (t, vel))).Nodup := by
        rw [hset]
        have : keysOf (s.active ++ [((ch, note), (t, vel))]) =
            keysOf s.active ++ [(ch, note)] := by simp [keysOf]
        rw [this]
        rw [List.nodup_append]
        exact ⟨hnd, List.nodup_singleton _,
          fun a ha hb => by simp at hb; exact hfreshL (hb ▸ ha)⟩
      have hwf2 : wfEvents (keyset (setA s.active (ch, note) (t, vel))) es' =
          true := by
        rw [hset, keyset_append_single]
        exact hwf'
      have hA2 : ∀ kv ∈ setA s.active (ch, note) (t, vel),
          windowStart ≤ kv.2.1 ∧ ∀ e' ∈ es', kv.2.1 < evTime e' := by
        intro kv hkv
        rw [hset] at hkv
        rcases List.mem_append.1 hkv with hkv | hkv
        · obtain ⟨h1, h2⟩ := hA kv hkv
          exact ⟨h1, fun e' he' => h2 e' (List.mem_cons_of_mem _ he')⟩
        · have hkveq : kv = ((ch, note), (t, vel)) := by simpa using hkv
          subst hkveq
          exact ⟨hbd0.1, fun e' he' => hhd e' he'⟩
      rw [List.foldl_cons, rstep_noteon_eq]
      obtain ⟨hact, hsusf, Δ', hnotes, hlen, hprops⟩ :=
        ih { s with active := setA s.active (ch, note) (t, vel) }
          hsus hnd2 hwf2 hpw' hbdd' hA2
      refine ⟨hact, hsusf, Δ', hnotes, ?_, ?_⟩
      · rw [hlen]
        have hl2 : (setA s.active (ch, note) (t, vel)).length =
            s.active.length + 1 := by rw [hset]; simp
        rw [hl2, List.countP_cons]
        simp [isNoteOnB]
        omega
      · intro n hn
        obtain ⟨horigin, hoff, hlt, hbetween⟩ := hprops n hn
        refine ⟨?_, List.mem_cons_of_mem _ hoff, hlt, ?_⟩
        · rcases horigin with h | h
          · exact Or.inl (List.mem_cons_of_mem _ h)
          · rw [hset] at h
            rcases List.mem_append.1 h with h | h
            · exact Or.inr h
            · left
              have he : ((n.ch, n.note), (n.startMs, n.vel)) =
                  ((ch, note), (t, vel)) := by simpa using h
              have h1 : n.ch = ch := by
                have := congrArg (fun p => p.1.1) he; simpa using this
              have h2 : n.note = note := by
                have := congrArg (fun p => p.1.2) he; simpa using this
              have h3 : n.startMs = t := by
                have := congrArg (fun p => p.2.1) he; simpa using this
              have h4 : n.vel = vel := by
                have := congrArg (fun p => p.2.2) he; simpa using this
              rw [h1, h2, h3, h4]
              exact List.mem_cons_self _ _
        · intro e' he' hkey
          rcases List.mem_cons.1 he' with he0 | he1
          · subst he0
            left
            have hk : (ch, note) = (n.ch, n.note) := by
              simpa [evKey] using hkey
            rcases horigin with h | h
            · exact le_of_lt (hhd _ h)
            · rw [hset] at h
              rcases List.mem_append.1 h with h | h
              · exfalso
                apply hfreshL
                rw [hk]
                exact List.mem_map_of_mem Prod.fst h
              · have h3 : n.startMs = t := by
                  have := congrArg (fun p => p.2.1)
                    (show ((n.ch, n.note), (n.startMs, n.vel)) =
                      ((ch, note), (t, vel)) by simpa using h)
                  simpa using this
                show evTime (Ev.noteon ch note vel t) ≤ n.startMs
                rw [h3]
                exact le_refl t
          · exact hbetween e' he1 hkey
    | noteoff ch note t =>
      obtain ⟨hmem, hwf'⟩ := wfEvents_noteoff_iff.1 hwf
      have hmemL : (ch, note) ∈ keysOf s.active := mem_keyset.1 hmem
      rcases Option.isSome_iff_exists.1 (lookupA_isSome_of_mem_keys hmemL)
        with ⟨st, hst⟩
      have hentry : ((ch, note), st) ∈ s.active := lookupA_mem hst
      obtain ⟨hws, hlt_all⟩ := hA _ hentry
      have hlt : st.1 < t := hlt_all _ (List.mem_cons_self _ _)
      have hsgf : sustainGet s.sustain ch = false := by rw [hsus]; rfl
      have hnd2 : (keysOf (delA s.active (ch, note))).Nodup :=
        hnd.sublist (keysOf_delA_sublist _ _)
      have hwf2 : wfEvents (keyset (delA s.active (ch, note))) es' = true := by
        rw [keyset_delA hnd]
        exact hwf'
      have hA2 : ∀ kv ∈ delA s.active (ch, note),
          windowStart ≤ kv.2.1 ∧ ∀ e' ∈ es', kv.2.1 < evTime e' := by
        intro kv hkv
        obtain ⟨h1, h2⟩ := hA kv (mem_delA hkv)
        exact ⟨h1, fun e' he' => h2 e' (List.mem_cons_of_mem _ he')⟩
      rw [List.foldl_cons, rstep_noteoff_close hst hsgf,
        pushNote_exact hws hlt hbd0.2]
      obtain ⟨hact, hsusf, Δ', hnotes, hlen, hprops⟩ :=
        ih { s with notes := s.notes ++ [⟨ch, note, st.1, t, st.2⟩],
                    active := delA s.active (ch, note) }
          hsus hnd2 hwf2 hpw' hbdd' hA2
      refine ⟨hact, hsusf, (⟨ch, note, st.1, t, st.2⟩ : Note) :: Δ', ?_, ?_, ?_⟩
      · rw [hnotes]
        simp
      · simp only [List.length_cons, List.countP_cons]
        rw [hlen]
        have hdl := delA_length_of_mem hmemL
        simp [isNoteOnB]
        omega
      · intro n hn
        rcases List.mem_cons.1 hn with hn0 | hn'
        · subst hn0
          refine ⟨Or.inr ?_, List.mem_cons_self _ _, hlt, ?_⟩
          · show ((ch, note), (st.1, st.2)) ∈ s.active
            rw [Prod.mk.eta]
            exact hentry
          · intro e' he' hkey
            rcases List.mem_cons.1 he' with he0 | he1
            · subst he0
              right
              exact le_refl _
            · right
              exact le_of_lt (hhd e' he1)
        · obtain ⟨horigin, hoff, hlt', hbetween⟩ := hprops n hn'
          refine ⟨?_, List.mem_cons_of_mem _ hoff, hlt', ?_⟩
          · rcases horigin with h | h
            · exact Or.inl (List.mem_cons_of_mem _ h)
            · exact Or.inr (mem_delA h)
          · intro e' he' hkey
            rcases List.mem_cons.1 he' with he0 | he1
            · subst he0
              rcases horigin with h | h
              · exact Or.inl (le_of_lt (hhd _ h))
              · exfalso
                have hk : (ch, note) = (n.ch, n.note) := by
                  simpa [evKey] using hkey
                have hmem' : (n.ch, n.note) ∈
                    keysOf (delA s.active (ch, note)) :=
                  List.mem_map_of_mem Prod.fst h
                rw [← hk] at hmem'
                exact not_mem_keysOf_delA hnd hmem'
            · exact hbetween e' he1 hkey
    | noteoffDeferred ch note t => simp [wfEvents] at hwf
    | cc ch ccnum val t => simp [wfEvents] at hwf
    | pitchbend ch value t => simp [wfEvents] at hwf
    | raw ch bytes t => simp [wfEvents] at hwf

/-- The total number of intervals across all tracks of the grouped
reconstruction output. -/
def trackTotal (m : List (TrackKey × List Note)) : Nat :=
  (m.map (fun p => p.2.length)).sum

theorem length_insertByStart (n : Note) (l : List Note) :
    (insertByStart n l).length = l.length + 1 := by
  induction l with
  | nil => rfl
  | cons m rest ih =>
    by_cases h : n.startMs ≤ m.startMs
    · simp [insertByStart, h]
    · simp [insertByStart, h, ih]

theorem length_sortByStart (l : List Note) :
    (sortByStart l).length = l.length := by
  induction l with
  | nil => rfl
  | cons n rest ih => simp [sortByStart, length_insertByStart, ih]

theorem trackTotal_setA (m : List (TrackKey × List Note)) (k : TrackKey)
    (v ns : List Note) (h : lookupA m k = some ns) :
    trackTotal (setA m k v) + ns.length = trackTotal m + v.length := by
  induction m with
  | nil => simp [lookupA] at h
  | cons hd tl ih =>
    obtain ⟨k0, vs0⟩ := hd
    by_cases h0 : k0 = k
    · subst h0
      rw [lookupA, if_pos rfl] at h
      injection h with h
      subst h
      rw [setA, if_pos rfl]
      simp [trackTotal]
      omega
    · rw [lookupA, if_neg h0] at h
      rw [setA, if_neg h0]
      have := ih h
      simp only [trackTotal, List.map_cons, List.sum_cons] at this ⊢
      omega

theorem trackTotal_addToTrack (m : List (TrackKey × List Note))
    (k : TrackKey) (n : Note) :
    trackTotal (addToTrack m k n) = trackTotal m + 1 := by
  unfold addToTrack
  rcases hl : lookupA m k with _ | ns
  · simp [trackTotal]
  · show trackTotal (setA m k (ns ++ [n])) = trackTotal m + 1
    have := trackTotal_setA m k (ns ++ [n]) ns hl
    simp at this
    omega

theorem trackTotal_foldl (gb : Bool) :
    ∀ (notes : List Note) (m : List (TrackKey × List Note)),
      trackTotal (notes.foldl
        (fun m n => addToTrack m (trackKeyFor gb n.ch) n) m) =
        trackTotal m + notes.length := by
  intro notes
  induction notes with
  | nil => intro m; simp
  | cons n rest ih =>
    intro m
    rw [List.foldl_cons, ih, trackTotal_addToTrack]
    simp only [List.length_cons]
    omega

theorem trackTotal_map_sort (m : List (TrackKey × List Note)) :
    trackTotal (m.map (fun p => (p.1, sortByStart p.2))) = trackTotal m := by
  induction m with
  | nil => rfl
  | cons p rest ih =>
    simp only [List.map_cons, trackTotal, List.sum_cons] at ih ⊢
    rw [length_sortByStart]
    omega

theorem trackTotal_reconstructNotes (gb : Bool) (es : List Ev)
    (windowStart windowEnd : Time) :
    trackTotal (reconstructNotes gb es windowStart windowEnd) =
      (reconstructNotesFlat es windowStart windowEnd).length := by
  unfold reconstructNotes
  rw [trackTotal_map_sort, trackTotal_foldl]
  simp [trackTotal]

/-- Claim C4 fails on the code as stated: a well-paired sustain-free
slice whose note-off coincides in time with its note-on (elapsed time
zero) yields ZERO intervals, not one per note-on — the zero-duration
candidate is dropped by `pushNote`. -/
theorem C4_zero_duration_counterexample :
    wfEvents ∅ [Ev.noteon 1 60 100 5, Ev.noteoff 1 60 5] = true ∧
      (∀ e ∈ [Ev.noteon 1 60 100 5, Ev.noteoff 1 60 5],
        (0 : Time) ≤ evTime e ∧ evTime e ≤ 10) ∧
      (reconstructNotesFlat [Ev.noteon 1 60 100 5, Ev.noteoff 1 60 5]
        0 10).length = 0 ∧
      ([Ev.noteon 1 60 100 5, Ev.noteoff 1 60 5].countP isNoteOnB) = 1 ∧
      (0 : Nat) ≠ 1 := by
  decide

/-- Claim C4 as amended: for every sustain-free slice of well-paired
note-on/note-off events at strictly increasing times inside the
window, `_reconstructNotes` yields exactly one interval per note-on
(in total across all tracks), and each interval runs from its note-on
to its matching note-off — the first same-key event after it — with
positive duration. -/
theorem C4_one_interval_per_noteon (gb : Bool) (es : List Ev)
    (windowStart windowEnd : Time)
    (hwf : wfEvents ∅ es = true)
    (hpw : es.Pairwise (fun a b => evTime a < evTime b))
    (hbdd : ∀ e ∈ es, windowStart ≤ evTime e ∧ evTime e ≤ windowEnd) :
    (reconstructNotesFlat es windowStart windowEnd).length =
      es.countP isNoteOnB ∧
    (∀ n ∈ reconstructNotesFlat es windowStart windowEnd,
      Ev.noteon n.ch n.note n.vel n.startMs ∈ es ∧
      Ev.noteoff n.ch n.note n.endMs ∈ es ∧
      n.startMs < n.endMs ∧
      ∀ e ∈ es, evKey e = some (n.ch, n.note) →
        evTime e ≤ n.startMs ∨ n.endMs ≤ evTime e) ∧
    trackTotal (reconstructNotes gb es windowStart windowEnd) =
      (reconstructNotesFlat es windowStart windowEnd).length := by
  obtain ⟨hact, hsusf, Δ, hnotes, hlen, hprops⟩ :=
    replay_wf_spec windowStart windowEnd es ⟨[], [], [], []⟩ rfl
      (by simp [keysOf]) hwf hpw hbdd (by simp)
  have hflat : reconstructNotesFlat es windowStart windowEnd = Δ := by
    unfold reconstructNotesFlat rfinalize
    rw [hact, List.foldl_nil, hnotes]
    simp
  refine ⟨?_, ?_, trackTotal_reconstructNotes gb es windowStart windowEnd⟩
  · rw [hflat, hlen]
    simp
  · intro n hn
    rw [hflat] at hn
    obtain ⟨horigin, hoff, hlt, hbet⟩ := hprops n hn
    refine ⟨?_, hoff, hlt, hbet⟩
    rcases horigin with h | h
    · exact h
    · simp at h

/-- Instance of the amended C4: two overlapping notes on one channel,
reconstructed over the window 0–40, yield exactly two intervals with
matching endpoints. -/
theorem C4_one_interval_witness :
    (wfEvents ∅ [Ev.noteon 1 60 100 0, Ev.noteon 1 62 90 10,
        Ev.noteoff 1 60 20, Ev.noteoff 1 62 30] = true ∧
      List.Pairwise (fun a b => evTime a < evTime b)
        [Ev.noteon 1 60 100 0, Ev.noteon 1 62 90 10, Ev.noteoff 1 60 20,
          Ev.noteoff 1 62 30] ∧
      (∀ e ∈ [Ev.noteon 1 60 100 0, Ev.noteon 1 62 90 10,
          Ev.noteoff 1 60 20, Ev.noteoff 1 62 30],
        (0 : Time) ≤ evTime e ∧ evTime e ≤ 40)) ∧
    ((reconstructNotesFlat [Ev.noteon 1 60 100 0, Ev.noteon 1 62 90 10,
        Ev.noteoff 1 60 20, Ev.noteoff 1 62 30] 0 40).length =
      [Ev.noteon 1 60 100 0, Ev.noteon 1 62 90 10, Ev.noteoff 1 60 20,
        Ev.noteoff 1 62 30].countP isNoteOnB ∧
      (∀ n ∈ reconstructNotesFlat [Ev.noteon 1 60 100 0,
          Ev.noteon 1 62 90 10, Ev.noteoff 1 60 20, Ev.noteoff 1 62 30] 0 40,
        Ev.noteon n.ch n.note n.vel n.startMs ∈
          [Ev.noteon 1 60 100 0, Ev.noteon 1 62 90 10, Ev.noteoff 1 60 20,
            Ev.noteoff 1 62 30] ∧
        Ev.noteoff n.ch n.note n.endMs ∈
          [Ev.noteon 1 60 100 0, Ev.noteon 1 62 90 10, Ev.noteoff 1 60 20,
            Ev.noteoff 1 62 30] ∧
        n.startMs < n.endMs ∧
        ∀ e ∈ [Ev.noteon 1 60 100 0, Ev.noteon 1 62 90 10,
            Ev.noteoff 1 60 20, Ev.noteoff 1 62 30],
          evKey e = some (n.ch, n.note) →
          evTime e ≤ n.startMs ∨ n.endMs ≤ evTime e) ∧
      trackTotal (reconstructNotes false [Ev.noteon 1 60 100 0,
        Ev.noteon 1 62 90 10, Ev.noteoff 1 60 20, Ev.noteoff 1 62 30]
        0 40) =
        (reconstructNotesFlat [Ev.noteon 1 60 100 0, Ev.noteon 1 62 90 10,
          Ev.noteoff 1 60 20, Ev.noteoff 1 62 30] 0 40).length) :=
  ⟨⟨by decide, by decide, by decide⟩,
    C4_one_interval_per_noteon false
      [Ev.noteon 1 60 100 0, Ev.noteon 1 62 90 10, Ev.noteoff 1 60 20,
        Ev.noteoff 1 62 30] 0 40 (by decide) (by decide) (by decide)⟩

/-! ## The live pending-key invariant and its preservation

The hypotheses of `C2_termination_three_cases` (case 3) and
`C3_pedal_up_flush` — duplicate-free active keys, every pending key on
its own channel and backed by an active note, and pending sets
non-empty only under a down pedal — form an invariant `PendInv` that
holds in the initial state and is preserved by every `_onMIDIMessage`
dispatch (persisted-state restore never refills these maps), so every
reachable live state satisfies them. -/

theorem keysOf_setA_of_mem {K V : Type} [DecidableEq K]
    {l : List (K × V)} {k : K} {v : V} (h : k ∈ keysOf l) :
    keysOf (setA l k v) = keysOf l := by
  induction l with
  | nil => simp [keysOf] at h
  | cons hd tl ih =>
    obtain ⟨k0, v0⟩ := hd
    by_cases h0 : k0 = k
    · subst h0
      rw [setA, if_pos rfl]
      rfl
    · simp only [keysOf, List.map_cons, List.mem_cons] at h
      rcases h with h | h
      · exact absurd h.symm h0
      · rw [setA, if_neg h0]
        simp only [keysOf, List.map_cons]
        have hih := ih (by simpa [keysOf] using h)
        simp only [keysOf] at hih
        rw [hih]

theorem keysOf_setA_nodup {K V : Type} [DecidableEq K]
    {l : List (K × V)} {k : K} {v : V} (h : (keysOf l).Nodup) :
    (keysOf (setA l k v)).Nodup := by
  by_cases hk : k ∈ keysOf l
  · rw [keysOf_setA_of_mem hk]
    exact h
  · rw [setA_of_not_mem hk]
    have heq : keysOf (l ++ [(k, v)]) = keysOf l ++ [k] := by simp [keysOf]
    rw [heq, List.nodup_append]
    exact ⟨h, List.nodup_singleton _,
      fun a ha hb => by simp at hb; exact hk (hb ▸ ha)⟩

theorem lookupA_setA_isSome {K V : Type} [DecidableEq K]
    {l : List (K × V)} {k k' : K} {v : V} (h : (lookupA l k').isSome) :
    (lookupA (setA l k v) k').isSome := by
  by_cases hk : k' = k
  · subst hk
    rw [lookupA_setA_self]
    rfl
  · rw [lookupA_setA_ne _ _ _ _ hk]
    exact h

/-- The live-state invariant of the capture maps: active keys are
duplicate-free, every pending key belongs to its channel and is backed
by an active note, and a channel's pending set is non-empty only while
its pedal is down. -/
def PendInv (s : CState) : Prop :=
  (keysOf s.active).Nodup ∧
  ∀ ch : Nat,
    (∀ k ∈ pendGet s.pendingRelease ch,
      k.1 = ch ∧ (lookupA s.active k).isSome) ∧
    (pendGet s.pendingRelease ch ≠ [] → sustainGet s.sustain ch = true)

theorem pendInv_init : PendInv initCState := by
  refine ⟨by simp [initCState, keysOf], fun ch => ⟨fun k hk => ?_, fun h => ?_⟩⟩
  · simp [initCState, pendGet, lookupA] at hk
  · simp [initCState, pendGet, lookupA] at h

theorem pendInv_ext {s1 s2 : CState} (ha : s2.active = s1.active)
    (hp : s2.pendingRelease = s1.pendingRelease)
    (hs : s2.sustain = s1.sustain) (h : PendInv s1) : PendInv s2 := by
  unfold PendInv
  rw [ha, hp, hs]
  exact h

theorem pendInv_markActivity {t : Time} {s : CState} (h : PendInv s) :
    PendInv (markActivity t s) :=
  pendInv_ext (markActivity_active t s) (markActivity_pendingRelease t s)
    (markActivity_sustain t s) h

theorem pendInv_startTake {t : Time} {s : CState} (h : PendInv s) :
    PendInv (startTake t s) :=
  pendInv_ext (startTake_active t s) (startTake_pendingRelease t s)
    (startTake_sustain t s) h

theorem pendInv_handleNoteOff (t : Time) (ch note : Nat) (s : CState)
    (h : PendInv s) : PendInv (handleNoteOff t ch note s) := by
  obtain ⟨hnd, hch⟩ := h
  unfold handleNoteOff
  rcases hl : lookupA s.active (ch, note) with _ | a
  · exact ⟨hnd, hch⟩
  · by_cases hs : sustainGet s.sustain ch
    · rw [if_pos hs]
      refine ⟨hnd, fun ch' => ⟨fun k hk => ?_, fun hne => ?_⟩⟩
      · by_cases hcc : ch' = ch
        · subst hcc
          simp only [pendGet, lookupA_setA_self, Option.getD_some] at hk
          rcases mem_addKey.1 hk with hk | hk
          · exact (hch ch').1 k hk
          · subst hk
            exact ⟨rfl, by rw [hl]; rfl⟩
        · simp only [pendGet] at hk ⊢
          rw [lookupA_setA_ne _ _ _ _ hcc] at hk
          exact (hch ch').1 k hk
      · by_cases hcc : ch' = ch
        · subst hcc
          exact hs
        · simp only [pendGet] at hne
          rw [lookupA_setA_ne _ _ _ _ hcc] at hne
          exact (hch ch').2 hne
    · rw [if_neg hs]
      refine ⟨hnd.sublist (keysOf_delA_sublist _ _),
        fun ch' => ⟨fun k hk => ?_, (hch ch').2⟩⟩
      obtain ⟨hk1, hk2⟩ := (hch ch').1 k hk
      by_cases hcc : ch' = ch
      · subst hcc
        exact absurd ((hch ch').2 (List.ne_nil_of_mem hk)) hs
      · have hkne : k ≠ (ch, note) := by
          intro hh
          exact hcc (by rw [← hk1, hh])
        rw [lookupA_delA_ne _ _ _ hkne]
        exact ⟨hk1, hk2⟩

theorem iflush_foldl_untouched (t : Time) (ch : Nat) :
    ∀ (keys : List (Nat × Nat)) (u : CState) (k' : Nat × Nat),
      k' ∉ keys →
      lookupA ((keys.foldl (iflushStep t ch) u)).active k' =
        lookupA u.active k' := by
  intro keys
  induction keys with
  | nil => intro u k' _; rfl
  | cons k0 rest ih =>
    intro u k' hk'
    have hne : k' ≠ k0 := fun hh => hk' (hh ▸ List.mem_cons_self _ _)
    have hrest : k' ∉ rest := fun hh => hk' (List.mem_cons_of_mem _ hh)
    rw [List.foldl_cons, ih _ _ hrest]
    unfold iflushStep
    rcases hl : lookupA u.active k0 with _ | a
    · rfl
    · exact lookupA_delA_ne _ _ _ hne

theorem pendGet_setA_self (m : List (Nat × List (Nat × Nat))) (ch : Nat)
    (v : List (Nat × Nat)) : pendGet (setA m ch v) ch = v := by
  unfold pendGet
  rw [lookupA_setA_self]
  rfl

theorem pendGet_setA_ne (m : List (Nat × List (Nat × Nat))) (ch ch' : Nat)
    (v : List (Nat × Nat)) (h : ch' ≠ ch) :
    pendGet (setA m ch v) ch' = pendGet m ch' := by
  unfold pendGet
  rw [lookupA_setA_ne _ _ _ _ h]

theorem pendInv_of_set_sustain (u s : CState) (ch : Nat) (b : Bool)
    (hact : u.active = s.active) (hpend : u.pendingRelease = s.pendingRelease)
    (hsus : u.sustain = setA s.sustain ch b)
    (hb : pendGet s.pendingRelease ch ≠ [] → b = true)
    (h : PendInv s) : PendInv u := by
  obtain ⟨hnd, hch⟩ := h
  refine ⟨by rw [hact]; exact hnd, fun ch' => ⟨fun k hk => ?_, fun hne => ?_⟩⟩
  · rw [hpend] at hk
    obtain ⟨h1, h2⟩ := (hch ch').1 k hk
    exact ⟨h1, by rw [hact]; exact h2⟩
  · rw [hpend] at hne
    rw [hsus]
    by_cases hcc : ch' = ch
    · subst hcc
      rw [sustainGet, lookupA_setA_self]
      simpa using hb hne
    · rw [sustainGet, lookupA_setA_ne _ _ _ _ hcc]
      exact (hch ch').2 hne

theorem pendInv_flush (t : Time) (ch : Nat) (u s : CState)
    (hact : u.active = s.active)
    (hpend : u.pendingRelease = s.pendingRelease)
    (hsus : ∀ ch', ch' ≠ ch →
      sustainGet u.sustain ch' = sustainGet s.sustain ch')
    (hinv : PendInv s) :
    PendInv { (pendGet u.pendingRelease ch).foldl (iflushStep t ch) u with
      pendingRelease :=
        setA ((pendGet u.pendingRelease ch).foldl
          (iflushStep t ch) u).pendingRelease ch [] } := by
  obtain ⟨hnd, hch⟩ := hinv
  obtain ⟨hpF, hsF, _, _, _, hacF, hndF⟩ :=
    iflush_foldl_pres t ch (pendGet u.pendingRelease ch) u
  refine ⟨?_, fun ch' => ⟨fun k hk => ?_, fun hne => ?_⟩⟩
  · show (keysOf ((pendGet u.pendingRelease ch).foldl
      (iflushStep t ch) u).active).Nodup
    exact hndF (by rw [hact]; exact hnd)
  · by_cases hcc : ch' = ch
    · subst hcc
      have hk' : k ∈ pendGet (setA ((pendGet u.pendingRelease ch').foldl
          (iflushStep t ch') u).pendingRelease ch' []) ch' := hk
      rw [pendGet_setA_self] at hk'
      simp at hk'
    · have hk' : k ∈ pendGet (setA ((pendGet u.pendingRelease ch).foldl
          (iflushStep t ch) u).pendingRelease ch []) ch' := hk
      rw [pendGet_setA_ne _ _ _ _ hcc, hpF, hpend] at hk'
      obtain ⟨hk1, hk2⟩ := (hch ch').1 k hk'
      refine ⟨hk1, ?_⟩
      have hknotin : k ∉ pendGet u.pendingRelease ch := by
        intro hmem
        rw [hpend] at hmem
        obtain ⟨h1, _⟩ := (hch ch).1 k hmem
        exact hcc (by rw [← hk1, h1])
      show (lookupA ((pendGet u.pendingRelease ch).foldl
        (iflushStep t ch) u).active k).isSome
      rw [iflush_foldl_untouched t ch _ u k hknotin, hact]
      exact hk2
  · by_cases hcc : ch' = ch
    · subst hcc
      have hne' : pendGet (setA ((pendGet u.pendingRelease ch').foldl
          (iflushStep t ch') u).pendingRelease ch' []) ch' ≠ [] := hne
      rw [pendGet_setA_self] at hne'
      exact absurd rfl hne'
    · have hne' : pendGet (setA ((pendGet u.pendingRelease ch).foldl
          (iflushStep t ch) u).pendingRelease ch []) ch' ≠ [] := hne
      rw [pendGet_setA_ne _ _ _ _ hcc, hpF, hpend] at hne'
      show sustainGet ((pendGet u.pendingRelease ch).foldl
        (iflushStep t ch) u).sustain ch' = true
      rw [hsF, hsus ch' hcc]
      exact (hch ch').2 hne'

theorem pendInv_noteon_generic (u s : CState) (key : Nat × Nat)
    (tv : Time × Nat) (E : List Ev)
    (hact : u.active = s.active)
    (hpend : u.pendingRelease = s.pendingRelease)
    (hsus : u.sustain = s.sustain) (h : PendInv s) :
    PendInv { u with events := E, active := setA u.active key tv } := by
  obtain ⟨hnd, hch⟩ := h
  refine ⟨?_, fun ch' => ⟨fun k hk => ?_, fun hne => ?_⟩⟩
  · show (keysOf (setA u.active key tv)).Nodup
    rw [hact]
    exact keysOf_setA_nodup hnd
  · have hk' : k ∈ pendGet u.pendingRelease ch' := hk
    rw [hpend] at hk'
    obtain ⟨h1, h2⟩ := (hch ch').1 k hk'
    refine ⟨h1, ?_⟩
    show (lookupA (setA u.active key tv) k).isSome
    rw [hact]
    exact lookupA_setA_isSome (by rw [← hact]; rw [hact]; exact h2)
  · have hne' : pendGet u.pendingRelease ch' ≠ [] := hne
    rw [hpend] at hne'
    show sustainGet u.sustain ch' = true
    rw [hsus]
    exact (hch ch').2 hne'

theorem onMIDI_preserves_pendInv (t : Time) (data : List Nat) (s : CState)
    (h : PendInv s) : PendInv (onMIDIMessage t data s) := by
  match data with
  | [] => exact h
  | status :: rest =>
    simp only [onMIDIMessage]
    by_cases h144 : (status &&& 240) = 144
    · rw [if_pos h144]
      by_cases hvel : 0 < rest.getD 1 0
      · rw [if_pos hvel]
        exact pendInv_noteon_generic (startTake t (markActivity t s)) s _ _ _
          (by simp) (by simp) (by simp) h
      · rw [if_neg hvel]
        exact pendInv_handleNoteOff _ _ _ _ (pendInv_markActivity h)
    · rw [if_neg h144]
      by_cases h128 : (status &&& 240) = 128
      · rw [if_pos h128]
        exact pendInv_handleNoteOff _ _ _ _ (pendInv_markActivity h)
      · rw [if_neg h128]
        by_cases h176 : (status &&& 240) = 176
        · rw [if_pos h176]
          by_cases h64 : rest.getD 0 0 = 64
          · rw [if_pos h64]
            have hC2 : ¬((markActivity t s).currentTake = none ∧
                rest.getD 0 0 ≠ 64) := fun hc => hc.2 h64
            rw [if_neg hC2]
            by_cases hflush : (sustainGet (markActivity t s).sustain
                ((status &&& 15) + 1) && !decide (64 ≤ rest.getD 1 0)) = true
            · rw [if_pos hflush]
              refine pendInv_flush t _ _ s ?_ ?_ ?_ h
              · split <;> simp
              · split <;> simp
              · intro ch' hcc
                split <;> simp [sustainGet, lookupA_setA_ne _ _ _ _ hcc]
            · rw [if_neg hflush]
              refine pendInv_of_set_sustain _ s ((status &&& 15) + 1)
                (decide (64 ≤ rest.getD 1 0)) ?_ ?_ ?_ ?_ h
              · split <;> simp
              · split <;> simp
              · split <;> simp
              · intro hne
                have hwas : sustainGet s.sustain ((status &&& 15) + 1) =
                    true := (h.2 _).2 hne
                by_contra hbf
                rw [Bool.not_eq_true] at hbf
                apply hflush
                rw [markActivity_sustain, hwas, hbf]
                rfl
          · rw [if_neg h64]
            refine pendInv_ext ?_ ?_ ?_ h
            · split <;> simp
            · split <;> simp
            · split <;> simp
        · rw [if_neg h176]
          by_cases h224 : (status &&& 240) = 224
          · rw [if_pos h224]
            exact pendInv_ext (by simp) (by simp) (by simp) h
          · rw [if_neg h224]
            exact pendInv_ext (by simp) (by simp) (by simp) h

/-! ## Sustain-deferred terminations close at the pedal-up time (C1) -/

theorem rflushStep_notes_mono {windowStart windowEnd t : Time} {ch : Nat}
    {p : List ((Nat × Nat) × (Time × Nat)) × List Note} {key : Nat × Nat}
    {x : Note} (hx : x ∈ p.2) :
    x ∈ (rflushStep windowStart windowEnd t ch p key).2 := by
  unfold rflushStep
  rcases hl : lookupA p.1 key with _ | st
  · exact hx
  · show x ∈ pushNote windowStart windowEnd ch key.2 st.1 t st.2 p.2
    simp only [pushNote]
    split
    · exact List.mem_append_left _ hx
    · exact hx

theorem rflush_foldl_notes_mono (windowStart windowEnd t : Time) (ch : Nat) :
    ∀ (keys : List (Nat × Nat))
      (p : List ((Nat × Nat) × (Time × Nat)) × List Note) (x : Note),
      x ∈ p.2 →
      x ∈ (keys.foldl (rflushStep windowStart windowEnd t ch) p).2 := by
  intro keys
  induction keys with
  | nil => intro p x hx; exact hx
  | cons k0 rest ih =>
    intro p x hx
    rw [List.foldl_cons]
    exact ih _ x (rflushStep_notes_mono hx)

theorem rflush_foldl_mem (windowStart windowEnd t : Time) (ch : Nat) :
    ∀ (keys : List (Nat × Nat))
      (p : List ((Nat × Nat) × (Time × Nat)) × List Note)
      (note : Nat) (tOn : Time) (vel : Nat),
      (ch, note) ∈ keys →
      lookupA p.1 (ch, note) = some (tOn, vel) →
      windowStart ≤ tOn → tOn < t → t ≤ windowEnd →
      (⟨ch, note, tOn, t, vel⟩ : Note) ∈
        (keys.foldl (rflushStep windowStart windowEnd t ch) p).2 := by
  intro keys
  induction keys with
  | nil => intro p note tOn vel hmem; simp at hmem
  | cons k0 rest ih =>
    intro p note tOn vel hmem hl h1 h2 h3
    rw [List.foldl_cons]
    by_cases hk : k0 = (ch, note)
    · rw [hk]
      have hx : (⟨ch, note, tOn, t, vel⟩ : Note) ∈
          (rflushStep windowStart windowEnd t ch p (ch, note)).2 := by
        unfold rflushStep
        rw [hl]
        show _ ∈ pushNote windowStart windowEnd ch note tOn t vel p.2
        rw [pushNote_exact h1 h2 h3]
        exact List.mem_append_right _ (List.mem_singleton.2 rfl)
      exact rflush_foldl_notes_mono _ _ _ _ rest _ _ hx
    · rcases List.mem_cons.1 hmem with hc | hc
      · exact absurd hc.symm hk
      · apply ih _ note tOn vel hc _ h1 h2 h3
        unfold rflushStep
        rcases hl0 : lookupA p.1 k0 with _ | st
        · exact hl
        · show lookupA (delA p.1 k0) (ch, note) = some (tOn, vel)
          rw [lookupA_delA_ne _ _ _ (fun hh => hk hh.symm)]
          exact hl

/-- Claim C1: whenever a pedal-down on a channel precedes a note's
termination request — so that when the pedal-up arrives the key sits
in the local pending set with the note still active — the
reconstructed interval ends at the pedal-up time `t3`, not at the
physical release time: (i) from ANY replay state of that shape inside
the window, the pedal-up step emits the interval ending at `t3`;
(ii) on the canonical slice (note-on, pedal-down, termination recorded
as `noteoff` or `noteoff_deferred` at `t2`, pedal-up at `t3`) the
reconstruction yields exactly the single interval `[t0, t3]`. -/
theorem C1_sustain_end_is_pedal_up_time :
    (∀ (windowStart windowEnd t3 tOn : Time) (s : RecState)
      (ch note vel val : Nat),
      (ch, note) ∈ pendGet s.pending ch →
      lookupA s.active (ch, note) = some (tOn, vel) →
      sustainGet s.sustain ch = true → val < 64 →
      windowStart ≤ tOn → tOn < t3 → t3 ≤ windowEnd →
      (⟨ch, note, tOn, t3, vel⟩ : Note) ∈
        (rstep windowStart windowEnd s (Ev.cc ch 64 val t3)).notes) ∧
    (∀ (windowStart windowEnd t0 t1 t2 t3 : Time)
      (ch note vel vDown vUp : Nat) (term : Ev),
      (term = Ev.noteoff ch note t2 ∨ term = Ev.noteoffDeferred ch note t2) →
      64 ≤ vDown → vUp < 64 →
      windowStart ≤ t0 → t0 < t3 → t3 ≤ windowEnd →
      reconstructNotesFlat
        [Ev.noteon ch note vel t0, Ev.cc ch 64 vDown t1, term,
          Ev.cc ch 64 vUp t3] windowStart windowEnd
        = [⟨ch, note, t0, t3, vel⟩]) := by
  constructor
  · intro windowStart windowEnd t3 tOn s ch note vel val hpend hact hsus
      hval h1 h2 h3
    have hdec : decide (64 ≤ val) = false := decide_eq_false (by omega)
    have hstep : (rstep windowStart windowEnd s (Ev.cc ch 64 val t3)).notes =
        ((pendGet s.pending ch).foldl
          (rflushStep windowStart windowEnd t3 ch) (s.active, s.notes)).2 := by
      simp [rstep, hsus, hdec]
    rw [hstep]
    exact rflush_foldl_mem windowStart windowEnd t3 ch _ _ note tOn vel hpend
      hact h1 h2 h3
  · intro windowStart windowEnd t0 t1 t2 t3 ch note vel vDown vUp term hterm
      hDown hUp h0 h03 h3
    have hD : decide (64 ≤ vDown) = true := decide_eq_true hDown
    have hU : decide (64 ≤ vUp) = false := decide_eq_false (by omega)
    have hm1 : min windowEnd t0 = t0 := min_eq_right (le_trans (le_of_lt h03) h3)
    have hm2 : max windowStart t0 = t0 := max_eq_right h0
    have hm3 : min windowEnd t3 = t3 := min_eq_right h3
    have hm4 : max windowStart t3 = t3 := max_eq_right (le_trans h0 (le_of_lt h03))
    rcases hterm with h | h <;> subst h <;>
      simp [reconstructNotesFlat, rstep, rflushStep, rfinalize, pushNote,
        sustainGet, pendGet, lookupA, setA, delA, addKey, hD, hU,
        hm1, hm2, hm3, hm4, h03]

/-- Scenario A instance of C1: NoteOn(ch 1, note 60, vel 100) at 0,
sustain down at 10, deferred release at 50, sustain up at 200,
reconstructed over the window 0–250, yields the single interval
0–200. -/
theorem C1_sustain_witness :
    ((64 : Nat) ≤ 127 ∧ (0 : Nat) < 64 ∧ (0 : Time) ≤ 0 ∧ (0 : Time) < 200 ∧
      (200 : Time) ≤ 250) ∧
    reconstructNotesFlat
      [Ev.noteon 1 60 100 0, Ev.cc 1 64 127 10, Ev.noteoffDeferred 1 60 50,
        Ev.cc 1 64 0 200]
      0 250 = [⟨1, 60, 0, 200, 100⟩] :=
  ⟨by norm_num,
    C1_sustain_end_is_pedal_up_time.2 0 250 0 10 50 200 1 60 100 127 0
      (Ev.noteoffDeferred 1 60 50) (Or.inr rfl) (by norm_num) (by norm_num)
      (by norm_num) (by norm_num) (by norm_num)⟩
